import Mathlib

/-!
MyPinTool: the instruction-pointer transition recorder.

A shallow embedding of `src/MyPinTool.cpp`.

* The globals `out_file`, `icount`, `prev_addr`, `addr_map`, `threadcount` are
  the fields of `State`; each callback is a function on `State`.
* `std::set<ADDRINT>` is a list of addresses in iteration (ascending) order,
  `std::map<ADDRINT, set<ADDRINT>>` a list of entries in iteration (ascending
  key) order.  The container invariants (strictly ascending, hence no
  duplicates) are the predicate `map_wf`; the operations preserve it.
* `icount` is a `UINT64`: `icount++` is addition modulo `2 ^ 64`.
* `addr_map.max_size()` is a constant of the C++ library the tool is built
  with; it is the parameter `max_size` of `track_ip`.
* `threadcount` is a C++ `int` of 32 bits: `threadcount++` and `threadcount--`
  give the mathematical result within the range `INT_MIN .. INT_MAX` and wrap
  around modulo `2 ^ 32` at its ends (`int_wrap`).  C++ leaves signed overflow
  undefined; wrapping is what the compiled tool does.
* The calls made on the stream `out_file` are recorded, in order, in the
  field `sink`.  The conversion `%p` is a function of the C library; it is
  the parameter `fmt_p` of `render`.
* `addr_map.erase(addr_map.end())` is undefined behaviour.  `Fini` therefore
  returns an `Outcome`: either the state after a normal return, or the state
  in which the undefined operation was reached.  An execution is followed up
  to such an operation and no further: what the sink holds then is what was
  written before it.
* `LOG` writes to the diagnostic log of Pin; it touches neither the globals
  nor `out_file`, and is not part of the model.
* The callbacks are modelled as whole, sequential calls; calls of several threads
  are an interleaving of whole calls (`thread_samples` recovers the samples of one
  thread). Data races between unsynchronized callbacks are outside the model.
* Of `main`, the model keeps the path passed to `fopen` (`main_fopen_path`) and
  whether the stream was opened (`init`).
-/

namespace MyPinTool

/-! ## Containers -/

/-- The type `ADDRINT` of Pin: an unsigned machine address. -/
abbrev ADDRINT := Nat

/-- A `std::set<ADDRINT>`, as the list of its elements in iteration order. -/
abbrev AddrSet := List ADDRINT

/-- A `std::map<ADDRINT, set<ADDRINT>>`, as the list of its entries in iteration order. -/
abbrev AddrMap := List (ADDRINT × AddrSet)

/-- The call `set.insert(x)`: `x` is placed at its position in ascending order,
and the set is left as it is when it already holds `x`. -/
def set_insert (x : ADDRINT) : AddrSet → AddrSet
  | [] => [x]
  | y :: ys =>
    if x < y then x :: y :: ys
    else if x = y then y :: ys
    else y :: set_insert x ys

/-- The call `map.find(k)`: `none` stands for the iterator `end()`, `some v` for an
iterator to the entry `(k, v)`. -/
def map_find (k : ADDRINT) : AddrMap → Option AddrSet
  | [] => none
  | (k', v) :: rest => if k = k' then some v else map_find k rest

/-- The reference `map[k]`, used through `f`: the entry for `k` is created with an
empty set when the map has none (at its position in ascending key order), and
`f` is applied to the set stored for `k`. -/
def map_at (k : ADDRINT) (f : AddrSet → AddrSet) : AddrMap → AddrMap
  | [] => [(k, f [])]
  | (k', v) :: rest =>
    if k < k' then (k, f []) :: (k', v) :: rest
    else if k = k' then (k', f v) :: rest
    else (k', v) :: map_at k f rest

/-- The call `map.erase(it)` for the iterator `it` that `map.find(k)` returned
(not `end()`): the entry of key `k` is removed. -/
def map_erase (k : ADDRINT) : AddrMap → AddrMap
  | [] => []
  | (k', v) :: rest => if k = k' then rest else (k', v) :: map_erase k rest

/-- The keys of a map, in iteration order. -/
def map_keys (m : AddrMap) : List ADDRINT := m.map Prod.fst

/-- The edges `(from, to)` of a map in the order of the nested loops of `Fini`:
entries in iteration order, and for each entry its successors in iteration order. -/
def map_edges : AddrMap → List (ADDRINT × ADDRINT)
  | [] => []
  | (k, v) :: rest => v.map (fun t => (k, t)) ++ map_edges rest

/-- The invariant of `std::set`: strictly ascending iteration order. -/
def set_wf (v : AddrSet) : Prop := v.Pairwise (· < ·)

/-- The invariant of `std::map<ADDRINT, set<ADDRINT>>`: strictly ascending keys,
and every stored set is a `std::set`. -/
def map_wf (m : AddrMap) : Prop :=
  (map_keys m).Pairwise (· < ·) ∧ ∀ e ∈ m, set_wf e.2

instance (v : AddrSet) : Decidable (set_wf v) := by unfold set_wf; infer_instance

instance (m : AddrMap) : Decidable (map_wf m) := by unfold map_wf; infer_instance

/-! ## The output stream -/

/-- A call made on the stream `out_file`. -/
inductive FileOp where
  /-- The call `fprintf(out_file, "digraph controlflow {\n")`. -/
  | header
  /-- The call `fprintf(out_file, "\t\"%p\" -> \"%p\";\n", src, dst)`. -/
  | edge (src dst : ADDRINT)
  /-- The call `fprintf(out_file, "}\n")`. -/
  | footer
  /-- The call `fclose(out_file)`. -/
  | fclose
  deriving DecidableEq, Repr

/-- The text one call writes to the stream, `fmt_p` being the conversion `%p`. -/
def FileOp.text (fmt_p : ADDRINT → String) : FileOp → String
  | .header => "digraph controlflow \x7b\n"
  | .edge src dst => "\t\"" ++ fmt_p src ++ "\" -> \"" ++ fmt_p dst ++ "\";\n"
  | .footer => "\x7d\n"
  | .fclose => ""

/-- The text a sequence of calls writes to the stream. -/
def render (fmt_p : ADDRINT → String) : List FileOp → String
  | [] => ""
  | op :: ops => op.text fmt_p ++ render fmt_p ops

/-- The `fprintf` calls of the two nested loops of `Fini` over the map `m`. -/
def edge_lines (m : AddrMap) : List FileOp :=
  (map_edges m).map (fun e => FileOp.edge e.1 e.2)

/-- The edges named by the edge lines among a sequence of calls. -/
def written_edges : List FileOp → List (ADDRINT × ADDRINT)
  | [] => []
  | .edge a b :: ops => (a, b) :: written_edges ops
  | _ :: ops => written_edges ops

/-! ## The tool -/

/-- The least value of a C++ `int` of 32 bits. -/
def INT_MIN : Int := -2147483648

/-- The greatest value of a C++ `int` of 32 bits. -/
def INT_MAX : Int := 2147483647

/-- The value an `int` of 32 bits holds for the arithmetic result `z`: `z` itself within
`INT_MIN .. INT_MAX`, and `z` reduced modulo `2 ^ 32` into that range beyond it. -/
def int_wrap (z : Int) : Int := (z + 2147483648) % 4294967296 - 2147483648

/-- The globals of the tool, and the calls made so far on the stream that `main` opened. -/
structure State where
  /-- Whether `out_file != NULL`. -/
  out_file : Bool
  icount : Nat
  prev_addr : ADDRINT
  addr_map : AddrMap
  threadcount : Int
  /-- The calls made on the stream, oldest first. -/
  sink : List FileOp
  deriving DecidableEq, Repr

/-- The state when `PIN_StartProgram` is entered: the static initialisers, and
`out_file` as `fopen` returned it (`opened = false` when it returned `NULL`). -/
def init (opened : Bool) : State :=
  { out_file := opened, icount := 0, prev_addr := 0, addr_map := [], threadcount := 0, sink := [] }

/-- The result of a callback. -/
inductive Outcome where
  /-- The callback returned, leaving the state `s`. -/
  | ok (s : State)
  /-- The callback reached an operation whose behaviour is undefined, in the state `s`. -/
  | undefined (s : State)
  deriving DecidableEq, Repr

/-- The last state of an outcome. -/
def Outcome.state : Outcome → State
  | .ok s => s
  | .undefined s => s

/-- Whether the callback returned. -/
def Outcome.returned : Outcome → Bool
  | .ok _ => true
  | .undefined _ => false

/-- The two statements of `track_ip` that record the transition `a -> b`:
`if (addr_map.find(a) == addr_map.end()) addr_map[a] = set<ADDRINT>();` and
`addr_map[a].insert(b);`. -/
def record (a b : ADDRINT) (m : AddrMap) : AddrMap :=
  let m1 := if map_find a m = none then map_at a (fun _ => []) m else m
  map_at a (set_insert b) m1

/-- The callback `track_ip`, called before every instruction of the main executable. -/
def track_ip (max_size : Nat) (vip : ADDRINT) (s : State) : State :=
  let icount := (s.icount + 1) % 2 ^ 64
  if icount < max_size then
    let ip := vip
    { s with icount := icount, addr_map := record s.prev_addr ip s.addr_map, prev_addr := ip }
  else
    { s with icount := icount }

/-- The callback `Fini`. -/
def Fini (s : State) : Outcome :=
  if s.out_file then
    match map_find 0 s.addr_map with
    | none => .undefined s
    | some _ =>
      let m := map_erase 0 s.addr_map
      .ok { s with
        addr_map := m
        sink := s.sink ++ (FileOp.header :: edge_lines m ++ [FileOp.footer, FileOp.fclose])
        out_file := false }
  else .ok s

/-- The callback `ThreadStart`. -/
def ThreadStart (s : State) : State :=
  { s with threadcount := int_wrap (s.threadcount + 1) }

/-- The callback `ThreadFini`. -/
def ThreadFini (s : State) : Outcome :=
  let s1 := { s with threadcount := int_wrap (s.threadcount - 1) }
  if s1.threadcount = 0 then Fini s1 else .ok s1

/-- The callbacks Pin makes into the tool. -/
inductive Event where
  /-- The call `track_ip(vip)`. -/
  | sample (vip : ADDRINT)
  /-- The call `ThreadStart`. -/
  | threadStart
  /-- The call `ThreadFini`. -/
  | threadFini
  /-- The call `Fini` at the exit of the application. -/
  | exit
  deriving DecidableEq, Repr

/-- One callback. -/
def step (max_size : Nat) (e : Event) (s : State) : Outcome :=
  match e with
  | .sample vip => .ok (track_ip max_size vip s)
  | .threadStart => .ok (ThreadStart s)
  | .threadFini => ThreadFini s
  | .exit => Fini s

/-- A sequence of callbacks; the execution is followed up to the first undefined operation. -/
def run (max_size : Nat) : List Event → State → Outcome
  | [], s => .ok s
  | e :: es, s =>
    match step max_size e s with
    | .ok s1 => run max_size es s1
    | .undefined s1 => .undefined s1

/-- The samples `seq` fed one by one to `track_ip`. -/
def feed (max_size : Nat) : List ADDRINT → State → State
  | [], s => s
  | x :: xs, s => feed max_size xs (track_ip max_size x s)

/-- The pairs `(a, b)` such that `b` comes immediately after `a` in the sequence. -/
def transitions : List ADDRINT → List (ADDRINT × ADDRINT)
  | a :: b :: rest => (a, b) :: transitions (b :: rest)
  | _ => []

/-- The successor set stored for `a`, empty when the map has no entry for `a`. -/
def succs (m : AddrMap) (a : ADDRINT) : AddrSet := (map_find a m).getD []

/-- What holds of every state of an execution that starts in `init`: the map is a
`std::map`, no edge line was written for the sentinel key, and the header and the
closing of the stream are behind (at most once each) or still ahead, never both. -/
def Inv (s : State) : Prop :=
  map_wf s.addr_map
    ∧ (∀ b, FileOp.edge 0 b ∉ s.sink)
    ∧ s.sink.count FileOp.header + (if s.out_file then 1 else 0) ≤ 1
    ∧ s.sink.count FileOp.fclose + (if s.out_file then 1 else 0) ≤ 1

/-- The samples issued by thread `t`, in order, among `track_ip` calls each tagged with
the thread that issued it. `track_ip` itself receives the address only
(`IARG_INST_PTR`), never the thread. -/
def thread_samples (t : Nat) (calls : List (Nat × ADDRINT)) : List ADDRINT :=
  (calls.filter (fun c => decide (c.1 = t))).map Prod.snd

/-- The order of the edge lines: by source address, then by target address. -/
def edge_lt (e1 e2 : ADDRINT × ADDRINT) : Prop :=
  e1.1 < e2.1 ∨ (e1.1 = e2.1 ∧ e1.2 < e2.2)

instance (e1 e2 : ADDRINT × ADDRINT) : Decidable (edge_lt e1 e2) := by
  unfold edge_lt; infer_instance

/-- The edges of the edge lines that `Fini` writes when called in the state `s`: those
among the calls it adds to the sink. -/
def Fini_edges (s : State) : List (ADDRINT × ADDRINT) :=
  written_edges ((Fini s).state.sink.drop s.sink.length)

/-- The default value of the knob `KnobOutputFile` (option `-o`), lines 65-66. -/
def KnobOutputFile_default : String := "iptrack.out"

/-- The path `main` passes to `fopen` (line 135), `knob_value` being
`KnobOutputFile.Value()`: the literal `"iptrack.out"`. The statement that opened the
knob's value (line 134) is commented out. -/
def main_fopen_path (_knob_value : String) : String := "iptrack.out"

/-! ## The containers: membership and invariants -/

theorem mem_set_insert (x y : ADDRINT) (l : AddrSet) :
    y ∈ set_insert x l ↔ y = x ∨ y ∈ l := by
  induction l with
  | nil => simp [set_insert]
  | cons z zs ih =>
    unfold set_insert
    split
    · simp
    · split
      · rename_i h; subst h; simp
      · simp [ih]; tauto

theorem set_insert_wf (x : ADDRINT) (l : AddrSet) (h : set_wf l) : set_wf (set_insert x l) := by
  unfold set_wf at *
  induction l with
  | nil => simp [set_insert]
  | cons z zs ih =>
    rw [List.pairwise_cons] at h
    unfold set_insert
    split
    · rename_i hxz
      refine List.pairwise_cons.2 ⟨?_, List.pairwise_cons.2 h⟩
      intro w hw
      rcases List.mem_cons.1 hw with rfl | hw
      · exact hxz
      · exact lt_trans hxz (h.1 w hw)
    · split
      · exact List.pairwise_cons.2 h
      · rename_i h1 h2
        refine List.pairwise_cons.2 ⟨?_, ih h.2⟩
        intro w hw
        rcases (mem_set_insert x w zs).1 hw with rfl | hw
        · unfold ADDRINT at *; omega
        · exact h.1 w hw

theorem set_insert_idem (x : ADDRINT) (l : AddrSet) :
    set_insert x (set_insert x l) = set_insert x l := by
  induction l with
  | nil => simp [set_insert]
  | cons z zs ih =>
    by_cases h1 : x < z
    · simp [set_insert, h1]
    · by_cases h2 : x = z
      · simp [set_insert, h2]
      · simp [set_insert, h1, h2, ih]

theorem set_insert_of_mem (x : ADDRINT) (l : AddrSet) (hl : set_wf l) (hx : x ∈ l) :
    set_insert x l = l := by
  unfold set_wf at hl
  induction l with
  | nil => simp at hx
  | cons z zs ih =>
    rw [List.pairwise_cons] at hl
    rcases List.mem_cons.1 hx with rfl | hx
    · simp [set_insert]
    · have hz : z < x := hl.1 x hx
      have h1 : ¬ x < z := by unfold ADDRINT at *; omega
      have h2 : ¬ x = z := by unfold ADDRINT at *; omega
      simp [set_insert, h1, h2, ih hl.2 hx]

theorem map_find_eq_none_iff (k : ADDRINT) (m : AddrMap) :
    map_find k m = none ↔ k ∉ map_keys m := by
  induction m with
  | nil => simp [map_find, map_keys]
  | cons e rest ih =>
    obtain ⟨k', v⟩ := e
    by_cases h : k = k'
    · simp [map_find, map_keys, h]
    · simp only [map_keys] at ih
      simp [map_find, map_keys, h, ih]

theorem map_find_eq_some_iff (k : ADDRINT) (v : AddrSet) (m : AddrMap) (h : map_wf m) :
    map_find k m = some v ↔ (k, v) ∈ m := by
  obtain ⟨hk, -⟩ := h
  induction m with
  | nil => simp [map_find]
  | cons e rest ih =>
    obtain ⟨k', v'⟩ := e
    simp only [map_keys, List.map_cons, List.pairwise_cons] at hk
    have ih := ih hk.2
    by_cases h : k = k'
    · subst h
      simp only [map_find, if_true, List.mem_cons, Prod.mk.injEq, true_and, Option.some.injEq]
      constructor
      · intro h; exact Or.inl h.symm
      · rintro (h | h)
        · exact h.symm
        · exact absurd (hk.1 k (List.mem_map_of_mem Prod.fst h)) (lt_irrefl _)
    · simp [map_find, h, ih]

theorem mem_map_keys_map_at (a k : ADDRINT) (f : AddrSet → AddrSet) (m : AddrMap) :
    a ∈ map_keys (map_at k f m) ↔ a = k ∨ a ∈ map_keys m := by
  induction m with
  | nil => simp [map_at, map_keys]
  | cons e rest ih =>
    obtain ⟨k', v⟩ := e
    simp only [map_keys] at ih
    by_cases h1 : k < k'
    · simp [map_at, map_keys, h1]
    · by_cases h2 : k = k'
      · simp [map_at, map_keys, h1, h2]
      · simp [map_at, map_keys, h1, h2, ih]; tauto

theorem mem_map_edges (a b : ADDRINT) (m : AddrMap) :
    (a, b) ∈ map_edges m ↔ ∃ v, (a, v) ∈ m ∧ b ∈ v := by
  induction m with
  | nil => simp [map_edges]
  | cons e rest ih =>
    obtain ⟨k, v⟩ := e
    simp only [map_edges, List.mem_append, List.mem_map, Prod.mk.injEq, ih, List.mem_cons]
    constructor
    · rintro (⟨t, ht, rfl, rfl⟩ | ⟨w, hw, hb⟩)
      · exact ⟨v, Or.inl ⟨rfl, rfl⟩, ht⟩
      · exact ⟨w, Or.inr hw, hb⟩
    · rintro ⟨w, (⟨rfl, rfl⟩ | hw), hb⟩
      · exact Or.inl ⟨b, hb, rfl, rfl⟩
      · exact Or.inr ⟨w, hw, hb⟩

theorem map_find_of_lt (k : ADDRINT) (m : AddrMap) (h : ∀ a ∈ map_keys m, k < a) :
    map_find k m = none := by
  rw [map_find_eq_none_iff]
  intro hk
  exact absurd (h k hk) (lt_irrefl _)

theorem map_find_map_at (a k : ADDRINT) (f : AddrSet → AddrSet) (m : AddrMap)
    (h : (map_keys m).Pairwise (· < ·)) :
    map_find a (map_at k f m) = if a = k then some (f (succs m k)) else map_find a m := by
  induction m with
  | nil => simp [map_at, map_find, succs]
  | cons e rest ih =>
    obtain ⟨k', v⟩ := e
    simp only [map_keys, List.map_cons, List.pairwise_cons] at h
    have ih := ih h.2
    by_cases h1 : k < k'
    · have hk : map_find k ((k', v) :: rest) = none := by
        apply map_find_of_lt
        intro x hx
        simp only [map_keys, List.map_cons, List.mem_cons] at hx
        rcases hx with rfl | hx
        · exact h1
        · exact lt_trans h1 (h.1 x hx)
      simp only [map_at, h1, if_true, succs, hk, Option.getD_none]
      by_cases h3 : a = k
      · simp [map_find, h3]
      · simp [map_find, h3]
    · by_cases h2 : k = k'
      · subst h2
        by_cases h3 : a = k
        · simp [map_at, map_find, succs, h3]
        · simp [map_at, map_find, succs, h3]
      · have hs : succs ((k', v) :: rest) k = succs rest k := by simp [succs, map_find, h2]
        by_cases h3 : a = k'
        · have h4 : ¬ k' = k := fun h => h2 h.symm
          simp [map_at, map_find, h1, h2, h3, h4]
        · simp only [map_at, h1, h2, if_false, map_find, h3, ih, hs]

theorem map_at_map_at (k : ADDRINT) (f g : AddrSet → AddrSet) (m : AddrMap) :
    map_at k f (map_at k g m) = map_at k (f ∘ g) m := by
  induction m with
  | nil => simp [map_at]
  | cons e rest ih =>
    obtain ⟨k', v⟩ := e
    by_cases h1 : k < k'
    · simp [map_at, h1]
    · by_cases h2 : k = k'
      · simp [map_at, h2]
      · simp [map_at, h1, h2, ih]

theorem map_at_keys_wf (k : ADDRINT) (f : AddrSet → AddrSet) (m : AddrMap)
    (h : (map_keys m).Pairwise (· < ·)) : (map_keys (map_at k f m)).Pairwise (· < ·) := by
  induction m with
  | nil => simp [map_at, map_keys]
  | cons e rest ih =>
    obtain ⟨k', v⟩ := e
    simp only [map_keys, List.map_cons, List.pairwise_cons] at h
    have ih := ih h.2
    by_cases h1 : k < k'
    · simp only [map_at, h1, if_true, map_keys, List.map_cons, List.pairwise_cons]
      refine ⟨?_, h⟩
      intro x hx
      rcases List.mem_cons.1 hx with rfl | hx
      · exact h1
      · exact lt_trans h1 (h.1 x hx)
    · by_cases h2 : k = k'
      · subst h2
        simpa [map_at, map_keys] using h
      · simp only [map_at, h1, h2, if_false, map_keys, List.map_cons, List.pairwise_cons]
        refine ⟨?_, ih⟩
        intro x hx
        rcases (mem_map_keys_map_at x k f rest).1 hx with rfl | hx
        · unfold ADDRINT at *; omega
        · exact h.1 x hx

theorem map_at_wf (k : ADDRINT) (f : AddrSet → AddrSet) (m : AddrMap)
    (hf : ∀ v, set_wf v → set_wf (f v)) (h : map_wf m) : map_wf (map_at k f m) := by
  refine ⟨map_at_keys_wf k f m h.1, ?_⟩
  have hv := h.2
  have hnil : set_wf (f []) := hf [] List.Pairwise.nil
  clear h
  induction m with
  | nil =>
    intro e he
    simp only [map_at, List.mem_singleton] at he
    subst he; exact hnil
  | cons e rest ih =>
    obtain ⟨k', v⟩ := e
    have ih := ih (fun e he => hv e (List.mem_cons_of_mem _ he))
    have hv0 : set_wf v := hv (k', v) (List.mem_cons_self _ _)
    intro e he
    by_cases h1 : k < k'
    · simp only [map_at, h1, if_true, List.mem_cons] at he
      rcases he with rfl | rfl | he
      · exact hnil
      · exact hv0
      · exact hv e (List.mem_cons_of_mem _ he)
    · by_cases h2 : k = k'
      · subst h2
        simp only [map_at, lt_irrefl, if_true, if_false, List.mem_cons] at he
        rcases he with rfl | he
        · exact hf v hv0
        · exact hv e (List.mem_cons_of_mem _ he)
      · simp only [map_at, h1, h2, if_false, List.mem_cons] at he
        rcases he with rfl | he
        · exact hv0
        · exact ih e he

theorem record_wf (a b : ADDRINT) (m : AddrMap) (h : map_wf m) : map_wf (record a b m) := by
  unfold record
  apply map_at_wf a (set_insert b) _ (fun v hv => set_insert_wf b v hv)
  split
  · exact map_at_wf a _ m (fun _ _ => List.Pairwise.nil) h
  · exact h

theorem mem_map_keys_record (k a b : ADDRINT) (m : AddrMap) :
    k ∈ map_keys (record a b m) ↔ k = a ∨ k ∈ map_keys m := by
  unfold record
  rw [mem_map_keys_map_at]
  split
  · rw [mem_map_keys_map_at]; tauto
  · rfl

theorem map_find_record (k a b : ADDRINT) (m : AddrMap) (h : map_wf m) :
    map_find k (record a b m) = if k = a then some (set_insert b (succs m a)) else map_find k m := by
  unfold record
  by_cases hf : map_find a m = none
  · have h1 := map_at_keys_wf a (fun _ => []) m h.1
    simp only [hf, if_true]
    rw [map_find_map_at _ _ _ _ h1]
    by_cases hk : k = a
    · simp [hk, succs, map_find_map_at _ _ _ _ h.1, hf]
    · simp [hk, map_find_map_at _ _ _ _ h.1]
  · simp only [hf, if_false]
    rw [map_find_map_at _ _ _ _ h.1]

theorem succs_record (k a b : ADDRINT) (m : AddrMap) (h : map_wf m) :
    succs (record a b m) k = if k = a then set_insert b (succs m a) else succs m k := by
  unfold succs
  rw [map_find_record k a b m h]
  split <;> rfl

theorem record_of_find (a b : ADDRINT) (m : AddrMap) (h : map_find a m ≠ none) :
    record a b m = map_at a (set_insert b) m := by
  unfold record
  simp [h]

theorem record_idem (a b : ADDRINT) (m : AddrMap) :
    record a b (record a b m) = record a b m := by
  have hk : map_find a (record a b m) ≠ none := by
    intro h
    rw [map_find_eq_none_iff, mem_map_keys_record] at h
    exact h (Or.inl rfl)
  rw [record_of_find a b _ hk]
  conv_lhs => unfold record
  rw [map_at_map_at]
  have : (set_insert b ∘ set_insert b) = set_insert b := by
    funext v; exact set_insert_idem b v
  rw [this]
  rfl

theorem map_edges_map_at_nil (k : ADDRINT) (m : AddrMap) (h : map_find k m = none) :
    map_edges (map_at k (fun _ => []) m) = map_edges m := by
  induction m with
  | nil => simp [map_at, map_edges]
  | cons e rest ih =>
    obtain ⟨k', v⟩ := e
    by_cases h2 : k = k'
    · simp [map_find, h2] at h
    · have h3 : map_find k rest = none := by simpa [map_find, h2] using h
      by_cases h1 : k < k'
      · simp [map_at, map_edges, h1]
      · simp [map_at, map_edges, h1, h2, ih h3]

theorem mem_map_edges_map_at_insert (a b k x : ADDRINT) (m : AddrMap) :
    (a, b) ∈ map_edges (map_at k (set_insert x) m) ↔ (a = k ∧ b = x) ∨ (a, b) ∈ map_edges m := by
  induction m with
  | nil => simp [map_at, map_edges, set_insert]
  | cons e rest ih =>
    obtain ⟨k', v⟩ := e
    by_cases h1 : k < k'
    · simp [map_at, map_edges, h1, set_insert]
    · by_cases h2 : k = k'
      · subst h2
        simp [map_at, map_edges, mem_set_insert]; tauto
      · simp only [map_at, h1, h2, if_false, map_edges, List.mem_append, ih]; tauto

theorem mem_map_edges_record (a b k x : ADDRINT) (m : AddrMap) :
    (a, b) ∈ map_edges (record k x m) ↔ (a = k ∧ b = x) ∨ (a, b) ∈ map_edges m := by
  unfold record
  rw [mem_map_edges_map_at_insert]
  split
  · rename_i h; rw [map_edges_map_at_nil k m h]
  · rfl

theorem map_erase_sublist (k : ADDRINT) (m : AddrMap) : (map_erase k m).Sublist m := by
  induction m with
  | nil => simp [map_erase]
  | cons e rest ih =>
    obtain ⟨k', v⟩ := e
    by_cases h : k = k'
    · simp [map_erase, h]
    · simpa [map_erase, h] using ih

theorem map_erase_wf (k : ADDRINT) (m : AddrMap) (h : map_wf m) : map_wf (map_erase k m) := by
  have hs := map_erase_sublist k m
  refine ⟨List.Pairwise.sublist (hs.map Prod.fst) h.1, fun e he => h.2 e (hs.subset he)⟩

theorem map_edges_filter_of_not_mem (k : ADDRINT) (m : AddrMap) (h : k ∉ map_keys m) :
    (map_edges m).filter (fun e => decide (e.1 ≠ k)) = map_edges m := by
  rw [List.filter_eq_self]
  intro e he
  obtain ⟨a, b⟩ := e
  obtain ⟨v, hv, -⟩ := (mem_map_edges a b m).1 he
  have : a ∈ map_keys m := List.mem_map_of_mem Prod.fst hv
  simp only [decide_eq_true_eq]
  rintro rfl
  exact h this

theorem map_edges_map_erase (k : ADDRINT) (m : AddrMap) (h : map_wf m) :
    map_edges (map_erase k m) = (map_edges m).filter (fun e => decide (e.1 ≠ k)) := by
  obtain ⟨hk, -⟩ := h
  induction m with
  | nil => simp [map_erase, map_edges]
  | cons e rest ih =>
    obtain ⟨k', v⟩ := e
    simp only [map_keys, List.map_cons, List.pairwise_cons] at hk
    have ih := ih hk.2
    by_cases h : k = k'
    · subst h
      have hn : k ∉ map_keys rest := fun hm => absurd (hk.1 k hm) (lt_irrefl _)
      simp only [map_erase, if_true, map_edges, List.filter_append,
        map_edges_filter_of_not_mem k rest hn]
      have : (v.map (fun t => (k, t))).filter (fun e => decide (e.1 ≠ k)) = [] := by
        rw [List.filter_eq_nil_iff]
        intro e he
        obtain ⟨t, -, rfl⟩ := List.mem_map.1 he
        simp
      rw [this, List.nil_append]
    · simp only [map_erase, h, if_false, map_edges, List.filter_append, ih]
      congr 1
      symm
      rw [List.filter_eq_self]
      intro e he
      obtain ⟨t, -, rfl⟩ := List.mem_map.1 he
      simpa using fun h' => h h'.symm

theorem mem_map_keys_map_erase (k : ADDRINT) (m : AddrMap) (h : map_wf m) :
    k ∉ map_keys (map_erase k m) := by
  obtain ⟨hk, -⟩ := h
  induction m with
  | nil => simp [map_erase, map_keys]
  | cons e rest ih =>
    obtain ⟨k', v⟩ := e
    simp only [map_keys, List.map_cons, List.pairwise_cons] at hk
    by_cases h : k = k'
    · subst h
      simpa [map_erase] using fun hm => absurd (hk.1 k hm) (lt_irrefl _)
    · have ih := ih hk.2
      simp only [map_keys] at ih
      simp [map_erase, h, map_keys, ih]

theorem written_edges_append (xs ys : List FileOp) :
    written_edges (xs ++ ys) = written_edges xs ++ written_edges ys := by
  induction xs with
  | nil => rfl
  | cons op ops ih => cases op <;> simp [written_edges, ih]

theorem written_edges_edge_lines (m : AddrMap) : written_edges (edge_lines m) = map_edges m := by
  unfold edge_lines
  induction map_edges m with
  | nil => rfl
  | cons e es ih => simp [written_edges, ih]

theorem mem_transitions (a b : ADDRINT) (l : List ADDRINT) :
    (a, b) ∈ transitions l ↔ ∃ xs ys, l = xs ++ a :: b :: ys := by
  induction l with
  | nil => simp [transitions]
  | cons x rest ih =>
    cases rest with
    | nil =>
      simp only [transitions, List.not_mem_nil, false_iff, not_exists]
      intro xs ys h
      have := congrArg List.length h
      simp at this
      omega
    | cons y rest =>
      simp only [transitions, List.mem_cons, Prod.mk.injEq, ih]
      constructor
      · rintro (⟨rfl, rfl⟩ | ⟨xs, ys, h⟩)
        · exact ⟨[], rest, rfl⟩
        · exact ⟨x :: xs, ys, by rw [h]; rfl⟩
      · rintro ⟨xs, ys, h⟩
        cases xs with
        | nil =>
          simp only [List.nil_append, List.cons.injEq] at h
          exact Or.inl ⟨h.1.symm, h.2.1.symm⟩
        | cons z zs =>
          simp only [List.cons_append, List.cons.injEq] at h
          exact Or.inr ⟨zs, ys, h.2⟩

/-! ## The callbacks -/

theorem track_ip_of_lt (max_size : Nat) (ip : ADDRINT) (s : State)
    (h : (s.icount + 1) % 2 ^ 64 < max_size) :
    track_ip max_size ip s =
      { s with icount := (s.icount + 1) % 2 ^ 64,
               addr_map := record s.prev_addr ip s.addr_map, prev_addr := ip } := by
  simp only [track_ip, h, if_true]

theorem track_ip_of_not_lt (max_size : Nat) (ip : ADDRINT) (s : State)
    (h : ¬ (s.icount + 1) % 2 ^ 64 < max_size) :
    track_ip max_size ip s = { s with icount := (s.icount + 1) % 2 ^ 64 } := by
  simp only [track_ip, h, if_false]

theorem track_ip_frame (max_size : Nat) (ip : ADDRINT) (s : State) :
    (track_ip max_size ip s).out_file = s.out_file
      ∧ (track_ip max_size ip s).threadcount = s.threadcount
      ∧ (track_ip max_size ip s).sink = s.sink := by
  by_cases h : (s.icount + 1) % 2 ^ 64 < max_size
  · rw [track_ip_of_lt max_size ip s h]; exact ⟨rfl, rfl, rfl⟩
  · rw [track_ip_of_not_lt max_size ip s h]; exact ⟨rfl, rfl, rfl⟩

theorem track_ip_wf (max_size : Nat) (ip : ADDRINT) (s : State) (h : map_wf s.addr_map) :
    map_wf (track_ip max_size ip s).addr_map := by
  by_cases hg : (s.icount + 1) % 2 ^ 64 < max_size
  · rw [track_ip_of_lt max_size ip s hg]; exact record_wf _ _ _ h
  · rw [track_ip_of_not_lt max_size ip s hg]; exact h

theorem feed_frame (max_size : Nat) (seq : List ADDRINT) (s : State) :
    (feed max_size seq s).out_file = s.out_file
      ∧ (feed max_size seq s).threadcount = s.threadcount
      ∧ (feed max_size seq s).sink = s.sink := by
  induction seq generalizing s with
  | nil => simp [feed]
  | cons x xs ih =>
    obtain ⟨h1, h2, h3⟩ := ih (track_ip max_size x s)
    obtain ⟨g1, g2, g3⟩ := track_ip_frame max_size x s
    simp only [feed]
    exact ⟨h1.trans g1, h2.trans g2, h3.trans g3⟩

theorem feed_wf (max_size : Nat) (seq : List ADDRINT) (s : State) (h : map_wf s.addr_map) :
    map_wf (feed max_size seq s).addr_map := by
  induction seq generalizing s with
  | nil => simpa [feed] using h
  | cons x xs ih => exact ih _ (track_ip_wf max_size x s h)

theorem icount_succ_le (n : Nat) : (n + 1) % 2 ^ 64 ≤ n + 1 := Nat.mod_le _ _

theorem feed_edges (max_size : Nat) (seq : List ADDRINT) (s : State)
    (h : s.icount + seq.length < max_size) (a b : ADDRINT) :
    (a, b) ∈ map_edges (feed max_size seq s).addr_map ↔
      (a, b) ∈ map_edges s.addr_map ∨ (a, b) ∈ transitions (s.prev_addr :: seq) := by
  induction seq generalizing s with
  | nil => simp [feed, transitions]
  | cons x xs ih =>
    have hle := icount_succ_le s.icount
    simp only [List.length_cons] at h
    have hlt : (s.icount + 1) % 2 ^ 64 < max_size := by omega
    have hs := track_ip_of_lt max_size x s hlt
    have h' : (track_ip max_size x s).icount + xs.length < max_size := by
      rw [hs]; simp only; omega
    rw [feed, ih _ h', hs]
    simp only [mem_map_edges_record, transitions, List.mem_cons, Prod.mk.injEq]
    tauto

theorem feed_prev_addr (max_size : Nat) (seq : List ADDRINT) (s : State)
    (h : s.icount + seq.length < max_size) :
    (feed max_size seq s).prev_addr = (s.prev_addr :: seq).getLast (List.cons_ne_nil _ _) := by
  induction seq generalizing s with
  | nil => simp [feed]
  | cons x xs ih =>
    have hle := icount_succ_le s.icount
    simp only [List.length_cons] at h
    have hlt : (s.icount + 1) % 2 ^ 64 < max_size := by omega
    have hs := track_ip_of_lt max_size x s hlt
    have h' : (track_ip max_size x s).icount + xs.length < max_size := by
      rw [hs]; simp only; omega
    rw [feed, ih _ h', hs]
    simp [List.getLast_cons]

theorem track_ip_keys_mono (max_size : Nat) (ip k : ADDRINT) (s : State)
    (h : k ∈ map_keys s.addr_map) : k ∈ map_keys (track_ip max_size ip s).addr_map := by
  by_cases hg : (s.icount + 1) % 2 ^ 64 < max_size
  · rw [track_ip_of_lt max_size ip s hg]
    exact (mem_map_keys_record _ _ _ _).2 (Or.inr h)
  · rw [track_ip_of_not_lt max_size ip s hg]; exact h

theorem feed_keys_mono (max_size : Nat) (seq : List ADDRINT) (k : ADDRINT) (s : State)
    (h : k ∈ map_keys s.addr_map) : k ∈ map_keys (feed max_size seq s).addr_map := by
  induction seq generalizing s with
  | nil => simpa [feed] using h
  | cons x xs ih => exact ih _ (track_ip_keys_mono max_size x k s h)

theorem feed_keys_prev (max_size : Nat) (seq : List ADDRINT) (s : State)
    (h : s.icount + seq.length < max_size) (hne : seq ≠ []) :
    s.prev_addr ∈ map_keys (feed max_size seq s).addr_map := by
  cases seq with
  | nil => exact absurd rfl hne
  | cons x xs =>
    have hle := icount_succ_le s.icount
    simp only [List.length_cons] at h
    have hlt : (s.icount + 1) % 2 ^ 64 < max_size := by omega
    have hs := track_ip_of_lt max_size x s hlt
    rw [feed]
    apply feed_keys_mono
    rw [hs]
    exact (mem_map_keys_record _ _ _ _).2 (Or.inl rfl)

theorem Fini_of_closed (s : State) (h : s.out_file = false) : Fini s = .ok s := by
  unfold Fini
  simp [h]

theorem Fini_of_find (s : State) (h : s.out_file = true) (hk : map_find 0 s.addr_map ≠ none) :
    Fini s = .ok { s with
      addr_map := map_erase 0 s.addr_map
      sink := s.sink ++
        (FileOp.header :: edge_lines (map_erase 0 s.addr_map) ++ [FileOp.footer, FileOp.fclose])
      out_file := false } := by
  unfold Fini
  cases hf : map_find 0 s.addr_map with
  | none => exact absurd hf hk
  | some v => simp [h]

theorem Fini_of_not_find (s : State) (h : s.out_file = true) (hk : map_find 0 s.addr_map = none) :
    Fini s = .undefined s := by
  unfold Fini
  simp [h, hk]

theorem Fini_threadcount (s : State) : (Fini s).state.threadcount = s.threadcount := by
  unfold Fini
  split
  · split <;> simp [Outcome.state]
  · simp [Outcome.state]

theorem mem_succs_iff (a b : ADDRINT) (m : AddrMap) (h : map_wf m) :
    b ∈ succs m a ↔ (a, b) ∈ map_edges m := by
  rw [mem_map_edges]
  unfold succs
  constructor
  · intro hb
    cases hf : map_find a m with
    | none => simp [hf] at hb
    | some v =>
      rw [hf] at hb
      exact ⟨v, (map_find_eq_some_iff a v m h).1 hf, hb⟩
  · rintro ⟨v, hv, hb⟩
    rw [(map_find_eq_some_iff a v m h).2 hv]
    exact hb

theorem succs_nodup (a : ADDRINT) (m : AddrMap) (h : map_wf m) : (succs m a).Nodup := by
  unfold succs
  cases hf : map_find a m with
  | none => simp
  | some v =>
    have hv : set_wf v := h.2 (a, v) ((map_find_eq_some_iff a v m h).1 hf)
    simp only [Option.getD_some]
    exact List.Pairwise.imp (fun hlt => Nat.ne_of_lt hlt) hv

theorem count_header_edge_lines (m : AddrMap) : (edge_lines m).count FileOp.header = 0 := by
  rw [List.count_eq_zero]
  unfold edge_lines
  intro h
  obtain ⟨e, -, he⟩ := List.mem_map.1 h
  cases he

theorem count_fclose_edge_lines (m : AddrMap) : (edge_lines m).count FileOp.fclose = 0 := by
  rw [List.count_eq_zero]
  unfold edge_lines
  intro h
  obtain ⟨e, -, he⟩ := List.mem_map.1 h
  cases he

theorem mem_edge_lines (a b : ADDRINT) (m : AddrMap) :
    FileOp.edge a b ∈ edge_lines m ↔ (a, b) ∈ map_edges m := by
  unfold edge_lines
  simp only [List.mem_map, FileOp.edge.injEq]
  constructor
  · rintro ⟨⟨x, y⟩, he, rfl, rfl⟩; exact he
  · intro h; exact ⟨(a, b), h, rfl, rfl⟩

theorem no_sentinel_edge_after_erase (b : ADDRINT) (m : AddrMap) (h : map_wf m) :
    FileOp.edge 0 b ∉ edge_lines (map_erase 0 m) := by
  rw [mem_edge_lines, map_edges_map_erase 0 m h]
  simp

theorem Inv_init (opened : Bool) : Inv (init opened) := by
  refine ⟨⟨List.Pairwise.nil, by simp [init]⟩, by simp [init], ?_, ?_⟩ <;>
    cases opened <;> simp [init]

theorem Inv_track_ip (max_size : Nat) (ip : ADDRINT) (s : State) (h : Inv s) :
    Inv (track_ip max_size ip s) := by
  obtain ⟨h1, h2, h3, h4⟩ := h
  obtain ⟨g1, -, g3⟩ := track_ip_frame max_size ip s
  refine ⟨track_ip_wf max_size ip s h1, ?_, ?_, ?_⟩
  · rw [g3]; exact h2
  · rw [g3, g1]; exact h3
  · rw [g3, g1]; exact h4

theorem Inv_ThreadStart (s : State) (h : Inv s) : Inv (ThreadStart s) := h

theorem Inv_Fini (s : State) (h : Inv s) : Inv (Fini s).state := by
  by_cases ho : s.out_file = true
  · by_cases hk : map_find 0 s.addr_map = none
    · rw [Fini_of_not_find s ho hk]; exact h
    · obtain ⟨h1, h2, h3, h4⟩ := h
      rw [Fini_of_find s ho hk]
      simp only [ho, if_true] at h3 h4
      refine ⟨map_erase_wf 0 _ h1, ?_, ?_, ?_⟩
      · intro b hb
        simp only [Outcome.state, List.mem_append, List.mem_cons, List.mem_singleton,
          List.not_mem_nil, or_false] at hb
        rcases hb with hb | (hb | hb) | hb | hb
        · exact h2 b hb
        · cases hb
        · exact no_sentinel_edge_after_erase b _ h1 hb
        · cases hb
        · cases hb
      · have := count_header_edge_lines (map_erase 0 s.addr_map)
        simp only [Outcome.state, List.count_append, List.count_cons, this]
        simp
        omega
      · have := count_fclose_edge_lines (map_erase 0 s.addr_map)
        simp only [Outcome.state, List.count_append, List.count_cons, this]
        simp
        omega
  · have ho : s.out_file = false := by simpa using ho
    rw [Fini_of_closed s ho]; exact h

theorem Inv_ThreadFini (s : State) (h : Inv s) : Inv (ThreadFini s).state := by
  unfold ThreadFini
  simp only
  split
  · exact Inv_Fini _ h
  · exact h

theorem Inv_step (max_size : Nat) (e : Event) (s : State) (h : Inv s) :
    Inv (step max_size e s).state := by
  cases e with
  | sample vip => exact Inv_track_ip max_size vip s h
  | threadStart => exact Inv_ThreadStart s h
  | threadFini => exact Inv_ThreadFini s h
  | exit => exact Inv_Fini s h

theorem Inv_run (max_size : Nat) (evs : List Event) (s : State) (h : Inv s) :
    Inv (run max_size evs s).state := by
  induction evs generalizing s with
  | nil => exact h
  | cons e es ih =>
    have hs := Inv_step max_size e s h
    unfold run
    cases hst : step max_size e s with
    | ok s1 => rw [hst] at hs; exact ih s1 hs
    | undefined s1 => rw [hst] at hs; exact hs

theorem mem_transitions_sentinel (a b : ADDRINT) (seq : List ADDRINT) (ha : a ≠ 0) :
    (a, b) ∈ transitions (0 :: seq) ↔ (a, b) ∈ transitions seq := by
  cases seq with
  | nil => simp [transitions]
  | cons x xs =>
    simp only [transitions, List.mem_cons, Prod.mk.injEq]
    constructor
    · rintro (⟨h, -⟩ | h)
      · exact absurd h ha
      · exact h
    · intro h; exact Or.inr h

theorem written_edges_Fini (s : State) (h : s.out_file = true)
    (hk : map_find 0 s.addr_map ≠ none) (hw : map_wf s.addr_map) :
    written_edges (Fini s).state.sink
      = written_edges s.sink ++ (map_edges s.addr_map).filter (fun e => decide (e.1 ≠ 0)) := by
  rw [Fini_of_find s h hk]
  simp only [Outcome.state, written_edges_append]
  rw [← List.singleton_append]
  simp only [written_edges_append]
  rw [written_edges_edge_lines, map_edges_map_erase 0 _ hw]
  simp [written_edges]

theorem track_ip_icount (max_size : Nat) (ip : ADDRINT) (s : State) :
    (track_ip max_size ip s).icount = (s.icount + 1) % 2 ^ 64 := by
  by_cases hg : (s.icount + 1) % 2 ^ 64 < max_size
  · rw [track_ip_of_lt max_size ip s hg]
  · rw [track_ip_of_not_lt max_size ip s hg]

theorem feed_icount (max_size : Nat) (seq : List ADDRINT) (s : State) :
    (feed max_size seq s).icount = (s.icount + seq.length) % 2 ^ 64 ∨ seq = [] := by
  induction seq generalizing s with
  | nil => exact Or.inr rfl
  | cons x xs ih =>
    left
    rw [feed]
    rcases ih (track_ip max_size x s) with h | h
    · rw [h, track_ip_icount, List.length_cons]
      omega
    · subst h
      simp [feed, track_ip_icount]

theorem feed_append (max_size : Nat) (xs ys : List ADDRINT) (s : State) :
    feed max_size (xs ++ ys) s = feed max_size ys (feed max_size xs s) := by
  induction xs generalizing s with
  | nil => rfl
  | cons x xs ih => simp [feed, ih]

theorem transitions_snd_mem (a b : ADDRINT) (l : List ADDRINT) (h : (a, b) ∈ transitions l) :
    b ∈ l := by
  obtain ⟨xs, ys, rfl⟩ := (mem_transitions a b l).1 h
  simp

theorem render_edge_lines (fmt_p : ADDRINT → String) (es : List (ADDRINT × ADDRINT))
    (tail : List FileOp) :
    render fmt_p (es.map (fun e => FileOp.edge e.1 e.2) ++ tail)
      = es.foldr (fun e t => ("\t\"" ++ fmt_p e.1 ++ "\" -> \"" ++ fmt_p e.2 ++ "\";\n") ++ t)
          (render fmt_p tail) := by
  induction es with
  | nil => rfl
  | cons e es ih =>
    show FileOp.text fmt_p (FileOp.edge e.1 e.2)
        ++ render fmt_p (es.map (fun e => FileOp.edge e.1 e.2) ++ tail) = _
    rw [ih]
    rfl

/-- What `Fini` writes for a store that holds the sentinel key: the calls, and their text. -/
theorem Fini_text (fmt_p : ADDRINT → String) (s : State) (ho : s.out_file = true)
    (hk : map_find 0 s.addr_map ≠ none) (hw : map_wf s.addr_map) :
    (Fini s).returned = true
      ∧ (Fini s).state.sink = s.sink ++
          (FileOp.header ::
            ((map_edges s.addr_map).filter (fun e => decide (e.1 ≠ 0))).map
              (fun e => FileOp.edge e.1 e.2) ++ [FileOp.footer, FileOp.fclose])
      ∧ render fmt_p
          (FileOp.header ::
            ((map_edges s.addr_map).filter (fun e => decide (e.1 ≠ 0))).map
              (fun e => FileOp.edge e.1 e.2) ++ [FileOp.footer, FileOp.fclose])
        = "digraph controlflow \x7b\n" ++
            ((map_edges s.addr_map).filter (fun e => decide (e.1 ≠ 0))).foldr
              (fun e t => ("\t\"" ++ fmt_p e.1 ++ "\" -> \"" ++ fmt_p e.2 ++ "\";\n") ++ t)
              "\x7d\n" := by
  refine ⟨?_, ?_, ?_⟩
  · rw [Fini_of_find s ho hk]; rfl
  · rw [Fini_of_find s ho hk]
    simp only [Outcome.state, edge_lines, map_edges_map_erase 0 _ hw]
  · show FileOp.text fmt_p FileOp.header ++ render fmt_p
        (((map_edges s.addr_map).filter (fun e => decide (e.1 ≠ 0))).map
          (fun e => FileOp.edge e.1 e.2) ++ [FileOp.footer, FileOp.fclose]) = _
    rw [render_edge_lines]
    rfl

/-! ## The properties of the specification -/

/-- C1. For every sequence of fewer than `max_size` samples fed one by one to `track_ip`
from the initial state and followed by `Fini` with an open sink, the edges written are
exactly the pairs `(a, b)` with `a ≠ 0` such that `b` comes immediately after `a`
somewhere in the sequence; and `Fini` returns whenever the sequence is not empty. -/
theorem Fini_writes_the_transitions (max_size : Nat) (seq : List ADDRINT)
    (h : seq.length < max_size) :
    (∀ a b, (a, b) ∈ written_edges (Fini (feed max_size seq (init true))).state.sink ↔
        (a ≠ 0 ∧ ∃ xs ys, seq = xs ++ a :: b :: ys))
      ∧ (seq ≠ [] → (Fini (feed max_size seq (init true))).returned = true) := by
  have hlen : (init true).icount + seq.length < max_size := by simpa [init] using h
  by_cases hne : seq = []
  · subst hne
    refine ⟨?_, fun h => absurd rfl h⟩
    intro a b
    have : Fini (feed max_size [] (init true)) = .undefined (init true) := by
      apply Fini_of_not_find <;> simp [feed, init, map_find]
    rw [this]
    simp [Outcome.state, init, written_edges]
  · have ho : (feed max_size seq (init true)).out_file = true :=
      (feed_frame max_size seq (init true)).1
    have hs : (feed max_size seq (init true)).sink = [] :=
      (feed_frame max_size seq (init true)).2.2
    have hw : map_wf (feed max_size seq (init true)).addr_map :=
      feed_wf max_size seq _ (Inv_init true).1
    have hk : map_find 0 (feed max_size seq (init true)).addr_map ≠ none := by
      intro hk
      rw [map_find_eq_none_iff] at hk
      exact hk (feed_keys_prev max_size seq (init true) hlen hne)
    refine ⟨?_, fun _ => ?_⟩
    · intro a b
      rw [written_edges_Fini _ ho hk hw, hs]
      simp only [written_edges, List.nil_append, List.mem_filter, decide_eq_true_eq]
      rw [feed_edges max_size seq (init true) hlen, ← mem_transitions]
      constructor
      · rintro ⟨h1, h2⟩
        rcases h1 with h1 | h1
        · simp [init, map_edges] at h1
        · exact ⟨h2, (mem_transitions_sentinel a b seq h2).1 h1⟩
      · rintro ⟨h1, h2⟩
        exact ⟨Or.inr ((mem_transitions_sentinel a b seq h1).2 h2), h1⟩
    · rw [Fini_of_find _ ho hk]; rfl

/-- C1, at the sequence of the specification: the four edges written, in the order
of the output. -/
theorem Fini_writes_the_transitions_witness :
    [0x100, 0x104, 0x108, 0x104, 0x108, 0x10c].length < 1000
      ∧ written_edges
          (Fini (feed 1000 [0x100, 0x104, 0x108, 0x104, 0x108, 0x10c] (init true))).state.sink
        = [(0x100, 0x104), (0x104, 0x108), (0x108, 0x104), (0x108, 0x10c)]
      ∧ ((∀ a b, (a, b) ∈ written_edges
            (Fini (feed 1000 [0x100, 0x104, 0x108, 0x104, 0x108, 0x10c] (init true))).state.sink ↔
          (a ≠ 0 ∧ ∃ xs ys, [0x100, 0x104, 0x108, 0x104, 0x108, 0x10c] = xs ++ a :: b :: ys))
        ∧ ([0x100, 0x104, 0x108, 0x104, 0x108, 0x10c] ≠ [] →
          (Fini (feed 1000 [0x100, 0x104, 0x108, 0x104, 0x108, 0x10c] (init true))).returned
            = true)) :=
  ⟨by decide, by decide,
    Fini_writes_the_transitions 1000 [0x100, 0x104, 0x108, 0x104, 0x108, 0x10c] (by decide)⟩

/-- C2, as stated, fails. After the single sample `0x100` the store holds the edge
`(0, 0x100)`, whose source is the sentinel; and for every capacity `max_size`, the last
of `max_size` samples is not recorded: `2` comes immediately after `1` in the sequence
`1, ..., 1, 2` of length `max_size`, and the store has no edge `(1, 2)`. -/
theorem store_edges_counterexample :
    ¬ (∀ a b, (a, b) ∈ map_edges (feed 1000 [0x100] (init true)).addr_map ↔
        ((∃ xs ys, [0x100] = xs ++ a :: b :: ys) ∧ a ≠ 0))
      ∧ ∀ max_size, 2 ≤ max_size → max_size < 2 ^ 64 →
          (1, 2) ∉ map_edges
            (feed max_size (List.replicate (max_size - 1) 1 ++ [2]) (init true)).addr_map := by
  constructor
  · intro h
    have h1 : ((0 : ADDRINT), (0x100 : ADDRINT)) ∈
        map_edges (feed 1000 [0x100] (init true)).addr_map := by decide
    exact ((h 0 0x100).1 h1).2 rfl
  · intro max_size h2 h64 hmem
    have hlen : (init true).icount + (List.replicate (max_size - 1) 1).length < max_size := by
      simp [init]; omega
    rw [feed_append] at hmem
    have hic : (feed max_size (List.replicate (max_size - 1) 1) (init true)).icount
        = max_size - 1 := by
      rcases feed_icount max_size (List.replicate (max_size - 1) 1) (init true) with h | h
      · rw [h]
        simp only [init, List.length_replicate, Nat.zero_add]
        exact Nat.mod_eq_of_lt (by omega)
      · have := congrArg List.length h
        simp at this
        omega
    have hg : ¬ ((feed max_size (List.replicate (max_size - 1) 1) (init true)).icount + 1)
        % 2 ^ 64 < max_size := by
      rw [hic, Nat.mod_eq_of_lt (by omega)]
      omega
    rw [feed, feed, track_ip_of_not_lt _ _ _ hg] at hmem
    rcases (feed_edges max_size _ (init true) hlen 1 2).1 hmem with h | h
    · simp [init, map_edges] at h
    · have := transitions_snd_mem 1 2 _ h
      simp [init] at this

/-- C2, amended. For every sequence of fewer than `max_size` samples fed to `track_ip`
from the initial state, the store holds the edge `(a, b)` if and only if `b` comes
immediately after `a` in the sequence preceded by the sentinel `0` (the initial
`prev_addr`): the first sample `x` records the edge `(0, x)`, and for `a ≠ 0` the store
holds `(a, b)` if and only if `b` comes immediately after `a` in the sequence. -/
theorem store_holds_the_transitions (max_size : Nat) (seq : List ADDRINT) (opened : Bool)
    (h : seq.length < max_size) :
    (∀ a b, b ∈ succs (feed max_size seq (init opened)).addr_map a ↔
        ∃ xs ys, 0 :: seq = xs ++ a :: b :: ys)
      ∧ (∀ a b, a ≠ 0 → (b ∈ succs (feed max_size seq (init opened)).addr_map a ↔
        ∃ xs ys, seq = xs ++ a :: b :: ys))
      ∧ (∀ x rest, seq = x :: rest → x ∈ succs (feed max_size seq (init opened)).addr_map 0) := by
  have hlen : (init opened).icount + seq.length < max_size := by simpa [init] using h
  have hw : map_wf (feed max_size seq (init opened)).addr_map :=
    feed_wf max_size seq _ (Inv_init opened).1
  have key : ∀ a b, b ∈ succs (feed max_size seq (init opened)).addr_map a ↔
      (a, b) ∈ transitions (0 :: seq) := by
    intro a b
    rw [mem_succs_iff a b _ hw, feed_edges max_size seq (init opened) hlen]
    simp [init, map_edges]
  refine ⟨fun a b => ?_, fun a b ha => ?_, fun x rest hx => ?_⟩
  · rw [key, mem_transitions]
  · rw [key, mem_transitions_sentinel a b seq ha, mem_transitions]
  · rw [key, hx]
    simp [transitions]

/-- C2 amended, at the sequence of the specification. -/
theorem store_holds_the_transitions_witness :
    [0x100, 0x104, 0x108, 0x104, 0x108, 0x10c].length < 1000
      ∧ (feed 1000 [0x100, 0x104, 0x108, 0x104, 0x108, 0x10c] (init true)).addr_map
        = [(0, [0x100]), (0x100, [0x104]), (0x104, [0x108]), (0x108, [0x104, 0x10c])]
      ∧ 0x104 ∈ succs
          (feed 1000 [0x100, 0x104, 0x108, 0x104, 0x108, 0x10c] (init true)).addr_map 0x108 :=
  ⟨by decide, by decide,
    ((store_holds_the_transitions 1000 [0x100, 0x104, 0x108, 0x104, 0x108, 0x10c] true
      (by decide)).2.1 0x108 0x104 (by decide)).2 ⟨[0x100, 0x104], [0x108, 0x10c], rfl⟩⟩

/-- C3. Recording is idempotent: recording the pair `(a, b)` twice leaves the same store,
and so the same successor set for `a`, as recording it once; recording keeps the store a
`std::map` of `std::set`s and puts `b` among the successors of `a`; and in every
execution no successor set holds the same address twice. -/
theorem record_idempotent (a b : ADDRINT) (m : AddrMap) :
    record a b (record a b m) = record a b m
      ∧ succs (record a b (record a b m)) a = succs (record a b m) a
      ∧ (map_wf m → map_wf (record a b m) ∧ b ∈ succs (record a b m) a
          ∧ ∀ k, (succs (record a b m) k).Nodup)
      ∧ (∀ max_size opened evs k,
          (succs (run max_size evs (init opened)).state.addr_map k).Nodup) := by
  refine ⟨record_idem a b m, by rw [record_idem a b m], fun hw => ⟨record_wf a b m hw, ?_, ?_⟩, ?_⟩
  · rw [succs_record a a b m hw]
    simp [mem_set_insert]
  · intro k
    exact succs_nodup k _ (record_wf a b m hw)
  · intro max_size opened evs k
    exact succs_nodup k _ (Inv_run max_size evs _ (Inv_init opened)).1

/-- C3, on the store left by the samples `0x100, 0x104`: recording `0x100 -> 0x104` again
changes nothing, and recording `0x100 -> 0x108` adds one successor. -/
theorem record_idempotent_witness :
    record 0x100 0x104 [(0, [0x100]), (0x100, [0x104])] = [(0, [0x100]), (0x100, [0x104])]
      ∧ record 0x100 0x108 [(0, [0x100]), (0x100, [0x104])]
        = [(0, [0x100]), (0x100, [0x104, 0x108])]
      ∧ record 0x100 0x108 (record 0x100 0x108 [(0, [0x100]), (0x100, [0x104])])
        = record 0x100 0x108 [(0, [0x100]), (0x100, [0x104])] :=
  ⟨by decide, by decide, (record_idempotent 0x100 0x108 [(0, [0x100]), (0x100, [0x104])]).1⟩

/-- C4, as stated, fails. In the state reached with a sink that failed to open
(`out_file = NULL`) and two samples recorded, two runs of `Fini` in succession both
return and neither writes the header nor closes the sink: not once, but never. (Nor is
anything written from the initial state with an open sink, where the first run does
not return.) -/
theorem finalize_twice_counterexample :
    Fini (feed 1000 [0x100, 0x104] (init false)) = .ok (feed 1000 [0x100, 0x104] (init false))
      ∧ (Fini (Fini (feed 1000 [0x100, 0x104] (init false))).state).state.sink.count
          FileOp.header = 0
      ∧ (Fini (Fini (feed 1000 [0x100, 0x104] (init false))).state).state.sink.count
          FileOp.fclose = 0
      ∧ (Fini (init true)).returned = false := by
  decide

/-- C4, amended. For every state with an open sink whose store holds the sentinel key,
`Fini` returns, and two runs of `Fini` in succession write the header once and close
the sink once; whenever a run of `Fini` returns, a second run returns the very same
state (nothing written, nothing closed, nothing changed); and in every sequence of
`track_ip` / `ThreadStart` / `ThreadFini` / `Fini` events from the initial state the
header is written at most once and the sink is closed at most once. -/
theorem finalize_once :
    (∀ s, s.out_file = true → map_find 0 s.addr_map ≠ none →
        ∃ s1, Fini s = .ok s1 ∧ Fini s1 = .ok s1
          ∧ s1.sink.count FileOp.header = s.sink.count FileOp.header + 1
          ∧ s1.sink.count FileOp.fclose = s.sink.count FileOp.fclose + 1)
      ∧ (∀ s s1, Fini s = .ok s1 → Fini s1 = .ok s1)
      ∧ (∀ max_size opened evs,
          (run max_size evs (init opened)).state.sink.count FileOp.header ≤ 1
            ∧ (run max_size evs (init opened)).state.sink.count FileOp.fclose ≤ 1) := by
  have second : ∀ s s1, Fini s = .ok s1 → Fini s1 = .ok s1 := by
    intro s s1 h
    apply Fini_of_closed
    by_cases ho : s.out_file = true
    · by_cases hk : map_find 0 s.addr_map = none
      · rw [Fini_of_not_find s ho hk] at h; cases h
      · rw [Fini_of_find s ho hk] at h
        cases h; rfl
    · have ho : s.out_file = false := by simpa using ho
      rw [Fini_of_closed s ho] at h
      cases h; exact ho
  refine ⟨?_, second, ?_⟩
  · intro s ho hk
    refine ⟨_, Fini_of_find s ho hk, second _ _ (Fini_of_find s ho hk), ?_, ?_⟩
    · have := count_header_edge_lines (map_erase 0 s.addr_map)
      simp [List.count_append, List.count_cons, this]
    · have := count_fclose_edge_lines (map_erase 0 s.addr_map)
      simp [List.count_append, List.count_cons, this]
  · intro max_size opened evs
    obtain ⟨-, -, h3, h4⟩ := Inv_run max_size evs _ (Inv_init opened)
    constructor <;> omega

/-- C4 amended, on an execution in which `ThreadFini` brings `threadcount` to `0` and the
exit of the process calls `Fini` again: one header, one closing of the sink. -/
theorem finalize_once_witness :
    (run 1000 [.threadStart, .sample 0x100, .sample 0x104, .threadFini, .exit] (init true))
        = .ok { out_file := false, icount := 2, prev_addr := 0x104,
                addr_map := [(0x100, [0x104])], threadcount := 0,
                sink := [.header, .edge 0x100 0x104, .footer, .fclose] }
      ∧ (run 1000 [.threadStart, .sample 0x100, .sample 0x104, .threadFini, .exit]
          (init true)).state.sink.count FileOp.header ≤ 1 :=
  ⟨by decide,
    (finalize_once.2.2 1000 true
      [.threadStart, .sample 0x100, .sample 0x104, .threadFini, .exit]).1⟩

/-- C5. Sentinel exclusion: in every execution from the initial state, no edge line
whose source is the sentinel `0` is ever written to the sink, and `Fini` called in
the state the execution has reached writes none either. -/
theorem sentinel_never_written (max_size : Nat) (opened : Bool) (evs : List Event)
    (b : ADDRINT) :
    FileOp.edge 0 b ∉ (run max_size evs (init opened)).state.sink
      ∧ FileOp.edge 0 b ∉ (Fini (run max_size evs (init opened)).state).state.sink :=
  ⟨(Inv_run max_size evs _ (Inv_init opened)).2.1 b,
    (Inv_Fini _ (Inv_run max_size evs _ (Inv_init opened))).2.1 b⟩

/-- C5, on an execution whose store holds two edges of source `0` when `Fini` runs
(the first sample, and the sample that follows a sample `0`): neither is written. -/
theorem sentinel_never_written_witness :
    (run 1000 [.sample 0x100, .sample 0, .sample 0x104] (init true))
        = .ok { out_file := true, icount := 3, prev_addr := 0x104,
                addr_map := [(0, [0x100, 0x104]), (0x100, [0])], threadcount := 0, sink := [] }
      ∧ (Fini (run 1000 [.sample 0x100, .sample 0, .sample 0x104] (init true)).state).state.sink
        = [.header, .edge 0x100 0, .footer, .fclose]
      ∧ FileOp.edge 0 0x104 ∉
        (Fini (run 1000 [.sample 0x100, .sample 0, .sample 0x104] (init true)).state).state.sink :=
  ⟨by decide, by decide,
    (sentinel_never_written 1000 true [.sample 0x100, .sample 0, .sample 0x104] 0x104).2⟩

/-- C6, as stated, fails. After the samples `0x100, 0x104`, `Fini` serializes the store
to the open sink and returns; the store is not empty afterwards: it still holds the
edge `0x100 -> 0x104`. -/
theorem store_not_drained_counterexample :
    (Fini (feed 1000 [0x100, 0x104] (init true))).returned = true
      ∧ (Fini (feed 1000 [0x100, 0x104] (init true))).state.sink
        = [.header, .edge 0x100 0x104, .footer, .fclose]
      ∧ (Fini (feed 1000 [0x100, 0x104] (init true))).state.addr_map = [(0x100, [0x104])]
      ∧ (Fini (feed 1000 [0x100, 0x104] (init true))).state.addr_map ≠ [] := by
  decide

/-- C6, amended. After `Fini` has serialized the store to an open sink, the store is
the store as it was without the entry of the sentinel key `0`: it keeps every edge
whose source is not `0`, and no other. The sink is then `NULL`, and that, not an empty
store, is why a second `Fini` returns without writing. -/
theorem store_after_Fini (s s1 : State) (ho : s.out_file = true) (hw : map_wf s.addr_map)
    (h : Fini s = .ok s1) :
    s1.addr_map = map_erase 0 s.addr_map
      ∧ (∀ a b, b ∈ succs s1.addr_map a ↔ (a ≠ 0 ∧ b ∈ succs s.addr_map a))
      ∧ s1.out_file = false
      ∧ Fini s1 = .ok s1 := by
  by_cases hk : map_find 0 s.addr_map = none
  · rw [Fini_of_not_find s ho hk] at h; cases h
  · rw [Fini_of_find s ho hk] at h
    cases h
    refine ⟨rfl, ?_, rfl, Fini_of_closed _ rfl⟩
    intro a b
    simp only
    rw [mem_succs_iff a b _ (map_erase_wf 0 _ hw), mem_succs_iff a b _ hw,
      map_edges_map_erase 0 _ hw]
    simp only [List.mem_filter, decide_eq_true_eq]
    tauto

/-- C6 amended, after the samples `0x100, 0x104, 0x108`. -/
theorem store_after_Fini_witness :
    (feed 1000 [0x100, 0x104, 0x108] (init true)).out_file = true
      ∧ map_wf (feed 1000 [0x100, 0x104, 0x108] (init true)).addr_map
      ∧ (Fini (feed 1000 [0x100, 0x104, 0x108] (init true))).state.addr_map
        = [(0x100, [0x104]), (0x104, [0x108])]
      ∧ (Fini (feed 1000 [0x100, 0x104, 0x108] (init true))).state.addr_map
        = map_erase 0 (feed 1000 [0x100, 0x104, 0x108] (init true)).addr_map :=
  ⟨by decide, by decide, by decide,
    (store_after_Fini (feed 1000 [0x100, 0x104, 0x108] (init true))
      (Fini (feed 1000 [0x100, 0x104, 0x108] (init true))).state
      (by decide) (by decide) (by decide)).1⟩

/-- C7: the defect. With an open sink and a store that has no entry for the sentinel key
(here the initial, empty store), `Fini` reaches `addr_map.erase(addr_map.end())`, whose
behaviour is undefined, before any call on the sink: neither the header nor the footer
is written. -/
theorem Fini_on_empty_store :
    Fini (init true) = .undefined (init true)
      ∧ (∀ fmt_p, render fmt_p (Fini (init true)).state.sink = "")
      ∧ (∀ fmt_p, render fmt_p [FileOp.header, FileOp.footer]
          = "digraph controlflow \x7b\n" ++ "\x7d\n") := by
  refine ⟨by decide, fun fmt_p => rfl, fun fmt_p => rfl⟩

/-- C8. The call `track_ip(ip)` adds one to `icount` (a `UINT64`: modulo `2 ^ 64`). If
the new count is below `max_size`, `ip` joins the successors of the current `prev_addr`
(whose entry is created if absent) while every other successor set is as before, and
`prev_addr` becomes `ip`; otherwise `addr_map` and `prev_addr` are unchanged. In both
cases `threadcount`, `out_file` and the sink are untouched. -/
theorem track_ip_spec (max_size : Nat) (ip : ADDRINT) (s : State) :
    (track_ip max_size ip s).icount = (s.icount + 1) % 2 ^ 64
      ∧ (s.icount + 1 < 2 ^ 64 → (track_ip max_size ip s).icount = s.icount + 1)
      ∧ ((track_ip max_size ip s).icount < max_size →
          (track_ip max_size ip s).prev_addr = ip
            ∧ (∀ k, k ∈ map_keys (track_ip max_size ip s).addr_map ↔
                k = s.prev_addr ∨ k ∈ map_keys s.addr_map)
            ∧ (map_wf s.addr_map → map_wf (track_ip max_size ip s).addr_map
                ∧ ∀ k b, b ∈ succs (track_ip max_size ip s).addr_map k ↔
                    (k = s.prev_addr ∧ b = ip) ∨ b ∈ succs s.addr_map k))
      ∧ (¬ (track_ip max_size ip s).icount < max_size →
          (track_ip max_size ip s).addr_map = s.addr_map
            ∧ (track_ip max_size ip s).prev_addr = s.prev_addr)
      ∧ (track_ip max_size ip s).threadcount = s.threadcount
      ∧ (track_ip max_size ip s).out_file = s.out_file
      ∧ (track_ip max_size ip s).sink = s.sink := by
  obtain ⟨g1, g2, g3⟩ := track_ip_frame max_size ip s
  refine ⟨track_ip_icount max_size ip s, ?_, ?_, ?_, g2, g1, g3⟩
  · intro h
    rw [track_ip_icount, Nat.mod_eq_of_lt h]
  · intro h
    rw [track_ip_icount] at h
    rw [track_ip_of_lt max_size ip s h]
    refine ⟨rfl, fun k => mem_map_keys_record k _ _ _, fun hw => ⟨record_wf _ _ _ hw, ?_⟩⟩
    intro k b
    simp only
    rw [mem_succs_iff k b _ (record_wf _ _ _ hw), mem_succs_iff k b _ hw, mem_map_edges_record]
  · intro h
    rw [track_ip_icount] at h
    rw [track_ip_of_not_lt max_size ip s h]
    exact ⟨rfl, rfl⟩

/-- C8, below the guard, at the guard, and where the counter wraps around. -/
theorem track_ip_spec_witness :
    track_ip 1000 0x104
        { out_file := true, icount := 1, prev_addr := 0x100,
          addr_map := [(0, [0x100])], threadcount := 1, sink := [] }
      = { out_file := true, icount := 2, prev_addr := 0x104,
          addr_map := [(0, [0x100]), (0x100, [0x104])], threadcount := 1, sink := [] }
      ∧ track_ip 1000 0x104
          { out_file := true, icount := 999, prev_addr := 0x100,
            addr_map := [(0, [0x100])], threadcount := 1, sink := [] }
        = { out_file := true, icount := 1000, prev_addr := 0x100,
            addr_map := [(0, [0x100])], threadcount := 1, sink := [] }
      ∧ (track_ip 1000 0x104
          { out_file := true, icount := 2 ^ 64 - 1, prev_addr := 0x100,
            addr_map := [(0, [0x100])], threadcount := 1, sink := [] }).icount = 0
      ∧ (track_ip 1000 0x104 (init true)).icount = ((init true).icount + 1) % 2 ^ 64 :=
  ⟨by decide, by decide, by decide, (track_ip_spec 1000 0x104 (init true)).1⟩

/-- C9. With `out_file = NULL`, `Fini` returns without any call on the sink and leaves
the whole state as it was: `addr_map` (the entry of the sentinel key included),
`prev_addr`, `icount`, `threadcount` and `out_file`. -/
theorem Fini_null_sink (s : State) (h : s.out_file = false) : Fini s = .ok s :=
  Fini_of_closed s h

/-- C9, in the state reached after two samples when `fopen` had returned `NULL`. -/
theorem Fini_null_sink_witness :
    (feed 1000 [0x100, 0x104] (init false)).out_file = false
      ∧ (feed 1000 [0x100, 0x104] (init false)).addr_map = [(0, [0x100]), (0x100, [0x104])]
      ∧ Fini (feed 1000 [0x100, 0x104] (init false))
        = .ok (feed 1000 [0x100, 0x104] (init false)) :=
  ⟨by decide, by decide, Fini_null_sink (feed 1000 [0x100, 0x104] (init false)) (by decide)⟩

/-- C10. `ThreadStart` adds one to `threadcount` and changes nothing else. `ThreadFini`
takes one from `threadcount`; if the new count is `0` it then does what `Fini` does in
that state, and otherwise it returns with nothing written and nothing else changed.
The count is an `int` of 32 bits: one is added or taken exactly, unless the count is
`INT_MAX` (the increment wraps to `INT_MIN`) or `INT_MIN` (the decrement wraps to
`INT_MAX`); a count within the range of `int` stays within it, and the new count of
`ThreadFini` is `0` exactly when the old one is `1`. -/
theorem thread_callbacks (s : State) :
    ThreadStart s = { s with threadcount := int_wrap (s.threadcount + 1) }
      ∧ (INT_MIN ≤ s.threadcount → s.threadcount < INT_MAX →
          (ThreadStart s).threadcount = s.threadcount + 1)
      ∧ (s.threadcount = INT_MAX → (ThreadStart s).threadcount = INT_MIN)
      ∧ (ThreadFini s).state.threadcount = int_wrap (s.threadcount - 1)
      ∧ (INT_MIN < s.threadcount → s.threadcount ≤ INT_MAX →
          (ThreadFini s).state.threadcount = s.threadcount - 1)
      ∧ (s.threadcount = INT_MIN → (ThreadFini s).state.threadcount = INT_MAX)
      ∧ (int_wrap (s.threadcount - 1) = 0 →
          ThreadFini s = Fini { s with threadcount := int_wrap (s.threadcount - 1) })
      ∧ (int_wrap (s.threadcount - 1) ≠ 0 →
          ThreadFini s = .ok { s with threadcount := int_wrap (s.threadcount - 1) })
      ∧ (INT_MIN ≤ s.threadcount → s.threadcount ≤ INT_MAX →
          (int_wrap (s.threadcount - 1) = 0 ↔ s.threadcount = 1))
      ∧ (INT_MIN ≤ (ThreadStart s).threadcount ∧ (ThreadStart s).threadcount ≤ INT_MAX)
      ∧ (INT_MIN ≤ (ThreadFini s).state.threadcount
          ∧ (ThreadFini s).state.threadcount ≤ INT_MAX) := by
  have hfini : (ThreadFini s).state.threadcount = int_wrap (s.threadcount - 1) := by
    unfold ThreadFini
    simp only
    split
    · rw [Fini_threadcount]
    · rfl
  have hstart : (ThreadStart s).threadcount = int_wrap (s.threadcount + 1) := rfl
  refine ⟨rfl, ?_, ?_, hfini, ?_, ?_, ?_, ?_, ?_, ?_, ?_⟩
  · intro h1 h2
    rw [hstart]
    unfold int_wrap INT_MIN INT_MAX at *
    omega
  · intro h
    rw [hstart, h]
    decide
  · intro h1 h2
    rw [hfini]
    unfold int_wrap INT_MIN INT_MAX at *
    omega
  · intro h
    rw [hfini, h]
    decide
  · intro h
    unfold ThreadFini
    simp only [h, if_true]
  · intro h
    unfold ThreadFini
    simp only [h, if_false]
  · intro h1 h2
    unfold int_wrap INT_MIN INT_MAX at *
    omega
  · rw [hstart]
    unfold int_wrap INT_MIN INT_MAX
    omega
  · rw [hfini]
    unfold int_wrap INT_MIN INT_MAX
    omega

/-- C10, with two threads: the first `ThreadFini` leaves the count at `1` and writes
nothing, the second brings it to `0` and finalizes; and at the two ends of the range
of `int` the count wraps around. -/
theorem thread_callbacks_witness :
    run 1000 [.threadStart, .threadStart, .sample 0x100, .sample 0x104, .threadFini] (init true)
        = .ok { out_file := true, icount := 2, prev_addr := 0x104,
                addr_map := [(0, [0x100]), (0x100, [0x104])], threadcount := 1, sink := [] }
      ∧ run 1000 [.threadStart, .threadStart, .sample 0x100, .sample 0x104, .threadFini,
          .threadFini] (init true)
        = .ok { out_file := false, icount := 2, prev_addr := 0x104,
                addr_map := [(0x100, [0x104])], threadcount := 0,
                sink := [.header, .edge 0x100 0x104, .footer, .fclose] }
      ∧ (ThreadStart
          { out_file := true, icount := 0, prev_addr := 0, addr_map := [],
            threadcount := 2147483647, sink := [] }).threadcount = -2147483648
      ∧ (ThreadFini
          { out_file := true, icount := 0, prev_addr := 0, addr_map := [],
            threadcount := -2147483648, sink := [] }).state.threadcount = 2147483647
      ∧ (ThreadStart (init true)).threadcount = (init true).threadcount + 1 :=
  ⟨by decide, by decide, by decide, by decide,
    (thread_callbacks (init true)).2.1 (by decide) (by decide)⟩

/-! ## Finalization without a recorded sample, and the output path -/

theorem Fini_set_threadcount (s : State) (t : Int) :
    Fini { s with threadcount := t }
      = match Fini s with
        | .ok s1 => .ok { s1 with threadcount := t }
        | .undefined s1 => .undefined { s1 with threadcount := t } := by
  by_cases ho : s.out_file = true
  · by_cases hk : map_find 0 s.addr_map = none
    · rw [Fini_of_not_find s ho hk, Fini_of_not_find { s with threadcount := t } ho hk]
    · rw [Fini_of_find s ho hk, Fini_of_find { s with threadcount := t } ho hk]
  · have ho : s.out_file = false := by simpa using ho
    rw [Fini_of_closed s ho, Fini_of_closed { s with threadcount := t } ho]

/-- C11: the defect. At the exit of the process with two live threads, an open sink and
no sample recorded, `Fini` reaches `addr_map.erase(addr_map.end())`: it does not
return, nothing is serialized and the sink is not closed. -/
theorem Fini_at_exit_without_samples :
    run 1000 [.threadStart, .threadStart, .exit] (init true)
        = .undefined { out_file := true, icount := 0, prev_addr := 0, addr_map := [],
                       threadcount := 2, sink := [] }
      ∧ (run 1000 [.threadStart, .threadStart, .exit] (init true)).state.out_file = true
      ∧ FileOp.fclose ∉ (run 1000 [.threadStart, .threadStart, .exit] (init true)).state.sink := by
  decide

/-- C14: the defect. With the option `-o trace.dot`, `main` opens `iptrack.out`, not
`trace.dot`; the file opened is the value of the knob only when that value is the
default. -/
theorem main_ignores_the_knob :
    main_fopen_path "trace.dot" = "iptrack.out"
      ∧ main_fopen_path "trace.dot" ≠ "trace.dot"
      ∧ main_fopen_path KnobOutputFile_default = KnobOutputFile_default := by
  decide

/-- C16: the defect. After `ThreadStart` then `ThreadFini`, with an open sink and no
`track_ip` call, `Fini` runs (the count is back to `0`) on a store without the key
`0`: `addr_map.find(0)` is `end()` and `erase` receives it. -/
theorem Fini_without_sentinel_key :
    map_find 0 (ThreadStart (init true)).addr_map = none
      ∧ run 1000 [.threadStart, .threadFini] (init true) = .undefined (init true)
      ∧ run 1000 [.exit] (init true) = .undefined (init true) := by
  decide

/-! ## The order of the output -/

theorem map_edges_sorted (m : AddrMap) (h : map_wf m) : (map_edges m).Pairwise edge_lt := by
  induction m with
  | nil => exact List.Pairwise.nil
  | cons e rest ih =>
    obtain ⟨k, v⟩ := e
    obtain ⟨hk, hv⟩ := h
    simp only [map_keys, List.map_cons, List.pairwise_cons] at hk
    have hrest : map_wf rest := ⟨hk.2, fun e he => hv e (List.mem_cons_of_mem _ he)⟩
    have hv0 : set_wf v := hv (k, v) (List.mem_cons_self _ _)
    simp only [map_edges]
    rw [List.pairwise_append]
    refine ⟨?_, ih hrest, ?_⟩
    · rw [List.pairwise_map]
      exact List.Pairwise.imp (fun hlt => Or.inr ⟨rfl, hlt⟩) hv0
    · intro x hx y hy
      obtain ⟨t, -, rfl⟩ := List.mem_map.1 hx
      obtain ⟨a, b⟩ := y
      obtain ⟨w, hw, -⟩ := (mem_map_edges a b rest).1 hy
      exact Or.inl (hk.1 a (List.mem_map_of_mem Prod.fst hw))

theorem edge_lt_irrefl (e : ADDRINT × ADDRINT) : ¬ edge_lt e e := by
  rintro (h | ⟨-, h⟩) <;> exact lt_irrefl _ h

theorem edge_lt_asymm (e1 e2 : ADDRINT × ADDRINT) (h1 : edge_lt e1 e2) (h2 : edge_lt e2 e1) :
    False := by
  unfold edge_lt at h1 h2
  unfold ADDRINT at *
  omega

theorem nodup_of_sorted (l : List (ADDRINT × ADDRINT)) (h : l.Pairwise edge_lt) : l.Nodup := by
  unfold List.Nodup
  refine List.Pairwise.imp ?_ h
  intro a b hlt heq
  subst heq
  exact edge_lt_irrefl a hlt

theorem eq_of_sorted_of_mem_iff (l1 l2 : List (ADDRINT × ADDRINT))
    (h1 : l1.Pairwise edge_lt) (h2 : l2.Pairwise edge_lt) (h : ∀ e, e ∈ l1 ↔ e ∈ l2) :
    l1 = l2 := by
  haveI : IsAntisymm (ADDRINT × ADDRINT) edge_lt :=
    ⟨fun a b hab hba => (edge_lt_asymm a b hab hba).elim⟩
  have n1 : l1.Nodup := nodup_of_sorted l1 h1
  have n2 : l2.Nodup := nodup_of_sorted l2 h2
  exact List.eq_of_perm_of_sorted ((List.perm_ext_iff_of_nodup n1 n2).2 h) h1 h2

theorem Fini_edges_of_find (s : State) (ho : s.out_file = true)
    (hk : map_find 0 s.addr_map ≠ none) (hw : map_wf s.addr_map) :
    Fini_edges s = (map_edges s.addr_map).filter (fun e => decide (e.1 ≠ 0)) := by
  unfold Fini_edges
  rw [Fini_of_find s ho hk]
  simp only [Outcome.state, List.drop_left]
  rw [← List.singleton_append]
  simp only [written_edges_append]
  rw [written_edges_edge_lines, map_edges_map_erase 0 _ hw]
  simp [written_edges]

theorem Fini_edges_of_not_returned (s : State) (ho : s.out_file = true)
    (hk : map_find 0 s.addr_map = none) : Fini_edges s = [] := by
  unfold Fini_edges
  rw [Fini_of_not_find s ho hk]
  simp [Outcome.state, written_edges]

theorem Fini_edges_of_closed (s : State) (ho : s.out_file = false) : Fini_edges s = [] := by
  unfold Fini_edges
  rw [Fini_of_closed s ho]
  simp [Outcome.state, written_edges]

theorem Fini_edges_sorted (s : State) (hw : map_wf s.addr_map) :
    (Fini_edges s).Pairwise edge_lt := by
  by_cases ho : s.out_file = true
  · by_cases hk : map_find 0 s.addr_map = none
    · rw [Fini_edges_of_not_returned s ho hk]; exact List.Pairwise.nil
    · rw [Fini_edges_of_find s ho hk hw]
      exact List.Pairwise.sublist (List.filter_sublist _) (map_edges_sorted _ hw)
  · have ho : s.out_file = false := by simpa using ho
    rw [Fini_edges_of_closed s ho]; exact List.Pairwise.nil

/-- C15. Stable traversal: for every store, the edge lines `Fini` writes appear in
strictly increasing order of `(from, to)`, by source and then by target. Consequently
no edge line is written twice, and the sequence of edge lines is determined by the set
of edges written: for a store that holds the sentinel key and an open sink, by the
set of the store's edges whose source is not `0`. -/
theorem Fini_edge_lines_ascending (s : State) (hw : map_wf s.addr_map) :
    (Fini_edges s).Pairwise edge_lt
      ∧ (Fini_edges s).Nodup
      ∧ (∀ s1, map_wf s1.addr_map → (∀ e, e ∈ Fini_edges s ↔ e ∈ Fini_edges s1) →
          Fini_edges s = Fini_edges s1)
      ∧ (s.out_file = true → map_find 0 s.addr_map ≠ none →
          (∀ a b, (a, b) ∈ Fini_edges s ↔ (a ≠ 0 ∧ b ∈ succs s.addr_map a))
          ∧ ∀ s1, map_wf s1.addr_map → s1.out_file = true → map_find 0 s1.addr_map ≠ none →
              (∀ a b, a ≠ 0 → (b ∈ succs s.addr_map a ↔ b ∈ succs s1.addr_map a)) →
              Fini_edges s = Fini_edges s1) := by
  have hs := Fini_edges_sorted s hw
  have key : ∀ s : State, map_wf s.addr_map → s.out_file = true →
      map_find 0 s.addr_map ≠ none →
      ∀ a b, (a, b) ∈ Fini_edges s ↔ (a ≠ 0 ∧ b ∈ succs s.addr_map a) := by
    intro s hw ho hk a b
    rw [Fini_edges_of_find s ho hk hw, mem_succs_iff a b _ hw]
    simp only [List.mem_filter, decide_eq_true_eq]
    tauto
  refine ⟨hs, nodup_of_sorted _ hs, ?_, ?_⟩
  · intro s1 hw1 h
    exact eq_of_sorted_of_mem_iff _ _ hs (Fini_edges_sorted s1 hw1) h
  · intro ho hk
    refine ⟨key s hw ho hk, ?_⟩
    intro s1 hw1 ho1 hk1 h
    apply eq_of_sorted_of_mem_iff _ _ hs (Fini_edges_sorted s1 hw1)
    rintro ⟨a, b⟩
    rw [key s hw ho hk, key s1 hw1 ho1 hk1]
    constructor
    · rintro ⟨ha, hb⟩; exact ⟨ha, (h a b ha).1 hb⟩
    · rintro ⟨ha, hb⟩; exact ⟨ha, (h a b ha).2 hb⟩

/-- C15, on samples recorded in descending and repeated order: the lines come out
ascending, each once. -/
theorem Fini_edge_lines_ascending_witness :
    map_wf (feed 1000 [0x108, 0x100, 0x104, 0x100, 0x108] (init true)).addr_map
      ∧ (Fini (feed 1000 [0x108, 0x100, 0x104, 0x100, 0x108] (init true))).state.sink
        = [.header, .edge 0x100 0x104, .edge 0x100 0x108, .edge 0x104 0x100,
           .edge 0x108 0x100, .footer, .fclose]
      ∧ (Fini_edges (feed 1000 [0x108, 0x100, 0x104, 0x100, 0x108] (init true))).Pairwise
          edge_lt :=
  ⟨by decide, by decide,
    (Fini_edge_lines_ascending (feed 1000 [0x108, 0x100, 0x104, 0x100, 0x108] (init true))
      (by decide)).1⟩

/-! ## The size of the store -/

theorem length_set_insert_le (x : ADDRINT) (l : AddrSet) :
    (set_insert x l).length ≤ l.length + 1 := by
  induction l with
  | nil => simp [set_insert]
  | cons y ys ih =>
    unfold set_insert
    split
    · simp
    · split
      · simp
      · simp only [List.length_cons]; omega

theorem set_insert_ne_nil (x : ADDRINT) (l : AddrSet) : set_insert x l ≠ [] := by
  intro h
  have : x ∈ set_insert x l := (mem_set_insert x x l).2 (Or.inl rfl)
  rw [h] at this
  exact List.not_mem_nil _ this

theorem length_map_edges_map_at_insert (k x : ADDRINT) (m : AddrMap) :
    (map_edges (map_at k (set_insert x) m)).length ≤ (map_edges m).length + 1 := by
  induction m with
  | nil => simp [map_at, map_edges, set_insert]
  | cons e rest ih =>
    obtain ⟨k', v⟩ := e
    by_cases h1 : k < k'
    · simp [map_at, map_edges, h1, set_insert]
    · by_cases h2 : k = k'
      · subst h2
        have := length_set_insert_le x v
        simp only [map_at, lt_irrefl, if_true, if_false, map_edges, List.length_append,
          List.length_map]
        omega
      · simp only [map_at, h1, h2, if_false, map_edges, List.length_append, List.length_map]
        omega

theorem length_map_edges_record (a b : ADDRINT) (m : AddrMap) :
    (map_edges (record a b m)).length ≤ (map_edges m).length + 1 := by
  unfold record
  refine le_trans (length_map_edges_map_at_insert a b _) ?_
  split
  · rename_i h; rw [map_edges_map_at_nil a m h]
  · exact le_refl _

theorem mem_map_at (e : ADDRINT × AddrSet) (k : ADDRINT) (f : AddrSet → AddrSet) (m : AddrMap)
    (h : e ∈ map_at k f m) : e ∈ m ∨ ∃ v, e = (k, f v) := by
  induction m with
  | nil =>
    simp only [map_at, List.mem_singleton] at h
    exact Or.inr ⟨[], h⟩
  | cons e' rest ih =>
    obtain ⟨k', v⟩ := e'
    by_cases h1 : k < k'
    · simp only [map_at, h1, if_true, List.mem_cons] at h
      rcases h with h | h | h
      · exact Or.inr ⟨[], h⟩
      · exact Or.inl (h ▸ List.mem_cons_self _ _)
      · exact Or.inl (List.mem_cons_of_mem _ h)
    · by_cases h2 : k = k'
      · subst h2
        simp only [map_at, lt_irrefl, if_true, if_false, List.mem_cons] at h
        rcases h with h | h
        · exact Or.inr ⟨v, h⟩
        · exact Or.inl (List.mem_cons_of_mem _ h)
      · simp only [map_at, h1, h2, if_false, List.mem_cons] at h
        rcases h with h | h
        · exact Or.inl (h ▸ List.mem_cons_self _ _)
        · rcases ih h with h | h
          · exact Or.inl (List.mem_cons_of_mem _ h)
          · exact Or.inr h

theorem record_nonempty (a b : ADDRINT) (m : AddrMap) (h : ∀ e ∈ m, e.2 ≠ []) :
    ∀ e ∈ record a b m, e.2 ≠ [] := by
  intro e he
  by_cases hf : map_find a m = none
  · have hr : record a b m = map_at a (set_insert b ∘ fun _ => []) m := by
      unfold record
      simp only [hf, if_true]
      exact map_at_map_at a _ _ m
    rw [hr] at he
    rcases mem_map_at e a _ m he with he | ⟨v, rfl⟩
    · exact h e he
    · exact set_insert_ne_nil b _
  · rw [record_of_find a b m hf] at he
    rcases mem_map_at e a _ m he with he | ⟨v, rfl⟩
    · exact h e he
    · exact set_insert_ne_nil b _

theorem length_map_keys_le (m : AddrMap) (h : ∀ e ∈ m, e.2 ≠ []) :
    (map_keys m).length ≤ (map_edges m).length := by
  induction m with
  | nil => simp [map_keys, map_edges]
  | cons e rest ih =>
    obtain ⟨k, v⟩ := e
    have ih := ih (fun e he => h e (List.mem_cons_of_mem _ he))
    have hv : v ≠ [] := h (k, v) (List.mem_cons_self _ _)
    have hl : 0 < v.length := List.length_pos.2 hv
    simp only [map_keys, List.map_cons, List.length_cons, List.length_map] at ih ⊢
    simp only [map_edges, List.length_append, List.length_map]
    omega

theorem track_ip_nonempty (max_size : Nat) (ip : ADDRINT) (s : State)
    (h : ∀ e ∈ s.addr_map, e.2 ≠ []) : ∀ e ∈ (track_ip max_size ip s).addr_map, e.2 ≠ [] := by
  by_cases hg : (s.icount + 1) % 2 ^ 64 < max_size
  · rw [track_ip_of_lt max_size ip s hg]; exact record_nonempty _ _ _ h
  · rw [track_ip_of_not_lt max_size ip s hg]; exact h

theorem feed_nonempty (max_size : Nat) (seq : List ADDRINT) (s : State)
    (h : ∀ e ∈ s.addr_map, e.2 ≠ []) : ∀ e ∈ (feed max_size seq s).addr_map, e.2 ≠ [] := by
  induction seq generalizing s with
  | nil => simpa [feed] using h
  | cons x xs ih => exact ih _ (track_ip_nonempty max_size x s h)

theorem feed_length_edges (max_size : Nat) (seq : List ADDRINT) (s : State)
    (h : s.icount + seq.length < 2 ^ 64) :
    (map_edges (feed max_size seq s).addr_map).length + min s.icount (max_size - 1)
      ≤ (map_edges s.addr_map).length + min (s.icount + seq.length) (max_size - 1) := by
  induction seq generalizing s with
  | nil => simp [feed]
  | cons x xs ih =>
    simp only [List.length_cons] at h
    have hmod : (s.icount + 1) % 2 ^ 64 = s.icount + 1 := Nat.mod_eq_of_lt (by omega)
    rw [feed]
    by_cases hg : (s.icount + 1) % 2 ^ 64 < max_size
    · have hs := track_ip_of_lt max_size x s hg
      have h1 : (track_ip max_size x s).icount = s.icount + 1 := by rw [hs]; exact hmod
      have h2 : (map_edges (track_ip max_size x s).addr_map).length
          ≤ (map_edges s.addr_map).length + 1 := by
        rw [hs]; exact length_map_edges_record _ _ _
      have := ih (track_ip max_size x s) (by rw [h1]; omega)
      rw [h1] at this
      rw [hmod] at hg
      simp only [List.length_cons]
      omega
    · have hs := track_ip_of_not_lt max_size x s hg
      have h1 : (track_ip max_size x s).icount = s.icount + 1 := by rw [hs]; exact hmod
      have h2 : (track_ip max_size x s).addr_map = s.addr_map := by rw [hs]
      have := ih (track_ip max_size x s) (by rw [h1]; omega)
      rw [h1, h2] at this
      rw [hmod] at hg
      simp only [List.length_cons]
      omega

/-- C17. Growth bound: after `n < 2 ^ 64` calls of `track_ip` from the initial state, the
number of edges held in `addr_map` (summed over all keys, the sentinel key included) is
at most `min n (max_size - 1)`, and the number of keys is at most the number of edges. -/
theorem store_growth_bound (max_size : Nat) (seq : List ADDRINT) (opened : Bool)
    (h : seq.length < 2 ^ 64) :
    (map_edges (feed max_size seq (init opened)).addr_map).length
        ≤ min seq.length (max_size - 1)
      ∧ (map_keys (feed max_size seq (init opened)).addr_map).length
        ≤ (map_edges (feed max_size seq (init opened)).addr_map).length := by
  constructor
  · have e1 : (init opened).icount = 0 := rfl
    have e2 : (map_edges (init opened).addr_map).length = 0 := rfl
    have := feed_length_edges max_size seq (init opened) (by rw [e1]; omega)
    rw [e1, e2] at this
    omega
  · apply length_map_keys_le
    apply feed_nonempty
    simp [init]

/-- C17, on six samples with repetitions: four keys, five edges; and with `max_size = 4`
only the first three samples are recorded. -/
theorem store_growth_bound_witness :
    [0x100, 0x104, 0x108, 0x104, 0x108, 0x10c].length < 2 ^ 64
      ∧ (map_keys
          (feed 1000 [0x100, 0x104, 0x108, 0x104, 0x108, 0x10c] (init true)).addr_map).length = 4
      ∧ (map_edges
          (feed 1000 [0x100, 0x104, 0x108, 0x104, 0x108, 0x10c] (init true)).addr_map).length = 5
      ∧ (map_edges
          (feed 4 [0x100, 0x104, 0x108, 0x104, 0x108, 0x10c] (init true)).addr_map).length = 3
      ∧ (map_edges
          (feed 4 [0x100, 0x104, 0x108, 0x104, 0x108, 0x10c] (init true)).addr_map).length
        ≤ min [0x100, 0x104, 0x108, 0x104, 0x108, 0x10c].length (4 - 1) :=
  ⟨by decide, by decide, by decide, by decide,
    (store_growth_bound 4 [0x100, 0x104, 0x108, 0x104, 0x108, 0x10c] true (by decide)).1⟩

/-! ## The capacity guard and the 64-bit counter -/

theorem feed_tripped (max_size : Nat) (seq : List ADDRINT) (s : State)
    (h1 : max_size ≤ s.icount + 1) (h2 : s.icount + seq.length < 2 ^ 64) :
    feed max_size seq s = { s with icount := s.icount + seq.length } := by
  induction seq generalizing s with
  | nil => rfl
  | cons x xs ih =>
    simp only [List.length_cons] at h2
    have hmod : (s.icount + 1) % 2 ^ 64 = s.icount + 1 := Nat.mod_eq_of_lt (by omega)
    have hg : ¬ (s.icount + 1) % 2 ^ 64 < max_size := by rw [hmod]; omega
    rw [feed, track_ip_of_not_lt max_size x s hg, hmod]
    rw [ih { s with icount := s.icount + 1 } (by simp only; omega) (by simp only; omega)]
    simp only [List.length_cons]
    congr 1
    omega

theorem feed_replicate_recorded (max_size : Nat) (h2 : 2 ≤ max_size) (h64 : max_size < 2 ^ 64) :
    (feed max_size (List.replicate (max_size - 1) 1) (init true)).icount = max_size - 1
      ∧ (feed max_size (List.replicate (max_size - 1) 1) (init true)).prev_addr = 1
      ∧ (1, 2) ∉ map_edges (feed max_size (List.replicate (max_size - 1) 1) (init true)).addr_map := by
  have hlen : (init true).icount + (List.replicate (max_size - 1) 1).length < max_size := by
    rw [List.length_replicate]
    show 0 + (max_size - 1) < max_size
    omega
  refine ⟨?_, ?_, ?_⟩
  · rcases feed_icount max_size (List.replicate (max_size - 1) 1) (init true) with h | h
    · rw [h, List.length_replicate]
      show (0 + (max_size - 1)) % 2 ^ 64 = max_size - 1
      rw [Nat.zero_add]
      exact Nat.mod_eq_of_lt (by omega)
    · have := congrArg List.length h
      rw [List.length_replicate, List.length_nil] at this
      omega
  · rw [feed_prev_addr max_size _ (init true) hlen]
    obtain ⟨n, hn⟩ : ∃ n, max_size - 1 = n + 1 := ⟨max_size - 2, by omega⟩
    rw [hn, List.replicate_succ']
    simp
  · intro hmem
    rcases (feed_edges max_size _ (init true) hlen 1 2).1 hmem with h | h
    · exact List.not_mem_nil _ h
    · have := transitions_snd_mem 1 2 _ h
      rcases List.mem_cons.1 this with h0 | h0
      · exact absurd h0 (by decide)
      · exact absurd (List.eq_of_mem_replicate h0) (by decide)

/-- The run of `2 ^ 64` samples `1, ..., 1, 2`: the calls from number `max_size` on find the
guard tripped and record nothing; the last call wraps the counter to `0` and records. -/
theorem wraparound_resumes (max_size : Nat) (h2 : 2 ≤ max_size) (h64 : max_size < 2 ^ 64) :
    (feed max_size (List.replicate (max_size - 1) 1 ++ [1]) (init true)).icount = max_size
      ∧ (feed max_size
          (List.replicate (max_size - 1) 1 ++ List.replicate (2 ^ 64 - max_size) 1)
          (init true)).icount = 2 ^ 64 - 1
      ∧ (1, 2) ∉ map_edges (feed max_size
          (List.replicate (max_size - 1) 1 ++ List.replicate (2 ^ 64 - max_size) 1)
          (init true)).addr_map
      ∧ (feed max_size
          (List.replicate (max_size - 1) 1 ++ List.replicate (2 ^ 64 - max_size) 1 ++ [2])
          (init true)).icount = 0
      ∧ (1, 2) ∈ map_edges (feed max_size
          (List.replicate (max_size - 1) 1 ++ List.replicate (2 ^ 64 - max_size) 1 ++ [2])
          (init true)).addr_map
      ∧ (feed max_size
          (List.replicate (max_size - 1) 1 ++ List.replicate (2 ^ 64 - max_size) 1 ++ [2])
          (init true)).prev_addr = 2 := by
  obtain ⟨hic, hprev, hno⟩ := feed_replicate_recorded max_size h2 h64
  have htr : ∀ l : List ADDRINT, l.length = 2 ^ 64 - max_size ∨ l.length = 1 →
      feed max_size l (feed max_size (List.replicate (max_size - 1) 1) (init true))
        = { feed max_size (List.replicate (max_size - 1) 1) (init true) with
            icount := max_size - 1 + l.length } := by
    intro l hl
    have := feed_tripped max_size l
      (feed max_size (List.replicate (max_size - 1) 1) (init true))
      (by rw [hic]; omega) (by rw [hic]; rcases hl with hl | hl <;> rw [hl] <;> omega)
    rw [hic] at this
    exact this
  have hmid := htr (List.replicate (2 ^ 64 - max_size) 1) (Or.inl (List.length_replicate _ _))
  rw [List.length_replicate] at hmid
  have hlast : (feed max_size
      (List.replicate (max_size - 1) 1 ++ List.replicate (2 ^ 64 - max_size) 1 ++ [2])
      (init true))
      = track_ip max_size 2 (feed max_size (List.replicate (2 ^ 64 - max_size) 1)
          (feed max_size (List.replicate (max_size - 1) 1) (init true))) := by
    rw [feed_append, feed_append]; rfl
  have hg : ((feed max_size (List.replicate (2 ^ 64 - max_size) 1)
      (feed max_size (List.replicate (max_size - 1) 1) (init true))).icount + 1) % 2 ^ 64
      < max_size := by
    rw [hmid]
    show (max_size - 1 + (2 ^ 64 - max_size) + 1) % 2 ^ 64 < max_size
    have : max_size - 1 + (2 ^ 64 - max_size) + 1 = 2 ^ 64 := by omega
    rw [this, Nat.mod_self]
    omega
  refine ⟨?_, ?_, ?_, ?_, ?_, ?_⟩
  · rw [feed_append, htr [1] (Or.inr rfl)]
    show max_size - 1 + 1 = max_size
    omega
  · rw [feed_append, hmid]
    show max_size - 1 + (2 ^ 64 - max_size) = 2 ^ 64 - 1
    omega
  · rw [feed_append, hmid]
    exact hno
  · rw [hlast, track_ip_icount, hmid]
    show (max_size - 1 + (2 ^ 64 - max_size) + 1) % 2 ^ 64 = 0
    have : max_size - 1 + (2 ^ 64 - max_size) + 1 = 2 ^ 64 := by omega
    rw [this, Nat.mod_self]
  · rw [hlast, track_ip_of_lt _ _ _ hg, hmid]
    show (1, 2) ∈ map_edges (record
      (feed max_size (List.replicate (max_size - 1) 1) (init true)).prev_addr 2
      (feed max_size (List.replicate (max_size - 1) 1) (init true)).addr_map)
    rw [hprev, mem_map_edges_record]
    exact Or.inl ⟨rfl, rfl⟩
  · rw [hlast, track_ip_of_lt _ _ _ hg]

/-- C13, as stated, fails. Feed the `2 ^ 64` samples `1, ..., 1, 2` with `max_size = 1000`.
The call number `1000` finds the guard tripped (`icount = 1000`), and after `2 ^ 64 - 1`
calls the store has no edge `(1, 2)` and `icount = 2 ^ 64 - 1`. The next call takes the
counter down to `0`, records the edge `(1, 2)` and moves `prev_addr` to `2`. -/
theorem degradation_counterexample :
    (feed 1000 (List.replicate (1000 - 1) 1 ++ [1]) (init true)).icount = 1000
      ∧ (feed 1000
          (List.replicate (1000 - 1) 1 ++ List.replicate (2 ^ 64 - 1000) 1)
          (init true)).icount = 2 ^ 64 - 1
      ∧ (1, 2) ∉ map_edges (feed 1000
          (List.replicate (1000 - 1) 1 ++ List.replicate (2 ^ 64 - 1000) 1)
          (init true)).addr_map
      ∧ (feed 1000
          (List.replicate (1000 - 1) 1 ++ List.replicate (2 ^ 64 - 1000) 1 ++ [2])
          (init true)).icount = 0
      ∧ (1, 2) ∈ map_edges (feed 1000
          (List.replicate (1000 - 1) 1 ++ List.replicate (2 ^ 64 - 1000) 1 ++ [2])
          (init true)).addr_map
      ∧ (feed 1000
          (List.replicate (1000 - 1) 1 ++ List.replicate (2 ^ 64 - 1000) 1 ++ [2])
          (init true)).prev_addr = 2 :=
  wraparound_resumes 1000 (by decide) (by decide)

/-- C13, amended. Once a call of `track_ip` has found the guard tripped (`max_size ≤ icount`),
the further calls leave `addr_map` and `prev_addr` unchanged and add one to the counter
each, as long as the counter stays below `2 ^ 64`. A call adds exactly one to the counter
unless the counter is `2 ^ 64 - 1`; that call takes it to `0` and, `max_size` being
positive, records again. -/
theorem degradation_until_wraparound (max_size : Nat) (s : State) (seq : List ADDRINT) :
    (max_size ≤ s.icount → s.icount + seq.length < 2 ^ 64 →
        (feed max_size seq s).addr_map = s.addr_map
          ∧ (feed max_size seq s).prev_addr = s.prev_addr
          ∧ (feed max_size seq s).icount = s.icount + seq.length)
      ∧ (∀ ip, s.icount + 1 < 2 ^ 64 → (track_ip max_size ip s).icount = s.icount + 1)
      ∧ (∀ ip, s.icount = 2 ^ 64 - 1 →
          (track_ip max_size ip s).icount = 0
            ∧ (0 < max_size →
                (track_ip max_size ip s).addr_map = record s.prev_addr ip s.addr_map
                  ∧ (track_ip max_size ip s).prev_addr = ip)) := by
  refine ⟨?_, ?_, ?_⟩
  · intro h1 h2
    rw [feed_tripped max_size seq s (by omega) h2]
    exact ⟨rfl, rfl, rfl⟩
  · intro ip h
    rw [track_ip_icount, Nat.mod_eq_of_lt h]
  · intro ip h
    have hz : (s.icount + 1) % 2 ^ 64 = 0 := by
      rw [h]
      decide
    refine ⟨by rw [track_ip_icount, hz], fun hpos => ?_⟩
    rw [track_ip_of_lt max_size ip s (by rw [hz]; exact hpos)]
    exact ⟨rfl, rfl⟩

/-- C13 amended: three calls after the guard has tripped, and the call that wraps the
counter. -/
theorem degradation_until_wraparound_witness :
    feed 1000 [0x104, 0x108, 0x10c]
        { out_file := true, icount := 1000, prev_addr := 0x100,
          addr_map := [(0, [0x100])], threadcount := 1, sink := [] }
      = { out_file := true, icount := 1003, prev_addr := 0x100,
          addr_map := [(0, [0x100])], threadcount := 1, sink := [] }
      ∧ track_ip 1000 0x104
          { out_file := true, icount := 2 ^ 64 - 1, prev_addr := 0x100,
            addr_map := [(0, [0x100])], threadcount := 1, sink := [] }
        = { out_file := true, icount := 0, prev_addr := 0x104,
            addr_map := [(0, [0x100]), (0x100, [0x104])], threadcount := 1, sink := [] }
      ∧ (feed 1000 [0x104, 0x108, 0x10c]
          { out_file := true, icount := 1000, prev_addr := 0x100,
            addr_map := [(0, [0x100])], threadcount := 1, sink := [] }).addr_map
        = [(0, [0x100])] :=
  ⟨by decide, by decide,
    ((degradation_until_wraparound 1000
      { out_file := true, icount := 1000, prev_addr := 0x100,
        addr_map := [(0, [0x100])], threadcount := 1, sink := [] }
      [0x104, 0x108, 0x10c]).1 (by decide) (by decide)).1⟩

/-! ## The recorded graph -/

theorem Fini_feed_returned (max_size : Nat) (seq : List ADDRINT) (h : seq.length < max_size)
    (hne : seq ≠ []) : (Fini (feed max_size seq (init true))).returned = true := by
  have hlen : (init true).icount + seq.length < max_size := by
    show 0 + seq.length < max_size
    omega
  have ho : (feed max_size seq (init true)).out_file = true :=
    (feed_frame max_size seq (init true)).1
  have hk : map_find 0 (feed max_size seq (init true)).addr_map ≠ none := by
    intro hk
    rw [map_find_eq_none_iff] at hk
    exact hk (feed_keys_prev max_size seq (init true) hlen hne)
  rw [Fini_of_find _ ho hk]
  rfl

theorem Fini_feed_written (max_size : Nat) (seq : List ADDRINT) (h : seq.length < max_size)
    (a b : ADDRINT) :
    (a, b) ∈ written_edges (Fini (feed max_size seq (init true))).state.sink ↔
      (a ≠ 0 ∧ (a, b) ∈ transitions seq) := by
  have hlen : (init true).icount + seq.length < max_size := by
    show 0 + seq.length < max_size
    omega
  by_cases hne : seq = []
  · subst hne
    have : Fini (feed max_size [] (init true)) = .undefined (init true) :=
      Fini_of_not_find _ rfl rfl
    rw [this]
    simp [Outcome.state, init, written_edges, transitions]
  · have ho : (feed max_size seq (init true)).out_file = true :=
      (feed_frame max_size seq (init true)).1
    have hs : (feed max_size seq (init true)).sink = [] :=
      (feed_frame max_size seq (init true)).2.2
    have hw : map_wf (feed max_size seq (init true)).addr_map :=
      feed_wf max_size seq _ (Inv_init true).1
    have hk : map_find 0 (feed max_size seq (init true)).addr_map ≠ none := by
      intro hk
      rw [map_find_eq_none_iff] at hk
      exact hk (feed_keys_prev max_size seq (init true) hlen hne)
    rw [written_edges_Fini _ ho hk hw, hs]
    simp only [written_edges, List.nil_append, List.mem_filter, decide_eq_true_eq]
    rw [feed_edges max_size seq (init true) hlen]
    constructor
    · rintro ⟨h1, h2⟩
      rcases h1 with h1 | h1
      · exact absurd h1 (List.not_mem_nil _)
      · exact ⟨h2, (mem_transitions_sentinel a b seq h2).1 h1⟩
    · rintro ⟨h1, h2⟩
      exact ⟨Or.inr ((mem_transitions_sentinel a b seq h1).2 h2), h1⟩

theorem transitions_fst_mem (a b : ADDRINT) (l : List ADDRINT) (h : (a, b) ∈ transitions l) :
    a ∈ l := by
  obtain ⟨xs, ys, rfl⟩ := (mem_transitions a b l).1 h
  simp

theorem thread_samples_of_single (t : Nat) (calls : List (Nat × ADDRINT))
    (h : ∀ c ∈ calls, c.1 = t) : thread_samples t calls = calls.map Prod.snd := by
  unfold thread_samples
  rw [List.filter_eq_self.2]
  intro c hc
  simpa using h c hc

/-- C12, as stated, fails. Thread `1` samples `0x100, 0x104` and thread `2` samples
`0x200, 0x204`, their calls alternating. The edge `0x100 -> 0x104` of thread `1` is
not written, and the edge `0x100 -> 0x200` is written although no thread sampled
`0x200` after `0x100`. -/
theorem thread_isolation_counterexample :
    thread_samples 1 [(1, 0x100), (2, 0x200), (1, 0x104), (2, 0x204)] = [0x100, 0x104]
      ∧ thread_samples 2 [(1, 0x100), (2, 0x200), (1, 0x104), (2, 0x204)] = [0x200, 0x204]
      ∧ written_edges (Fini (feed 1000
          ([(1, 0x100), (2, 0x200), (1, 0x104), (2, 0x204)].map Prod.snd) (init true))).state.sink
        = [(0x100, 0x200), (0x104, 0x204), (0x200, 0x104)]
      ∧ ¬ (∀ a b, (a, b) ∈ written_edges (Fini (feed 1000
            ([(1, 0x100), (2, 0x200), (1, 0x104), (2, 0x204)].map Prod.snd)
            (init true))).state.sink ↔
          ∃ t, (a, b) ∈ transitions
            (thread_samples t [(1, 0x100), (2, 0x200), (1, 0x104), (2, 0x204)])) := by
  refine ⟨by decide, by decide, by decide, ?_⟩
  intro h
  have h1 : ¬ ((0x100, 0x104) ∈ written_edges (Fini (feed 1000
      ([(1, 0x100), (2, 0x200), (1, 0x104), (2, 0x204)].map Prod.snd)
      (init true))).state.sink) := by decide
  exact h1 ((h 0x100 0x104).2 ⟨1, by decide⟩)

/-- C12, amended. `track_ip` keeps one `prev_addr` for all threads: for every sequence of
fewer than `max_size` whole `track_ip` calls, each tagged with the thread that issued
it, the edges written at finalization are the pairs `(a, b)` with `a ≠ 0` such that
`b` was sampled immediately after `a` in the interleaved sequence, whichever threads
issued the two calls. They are the transitions of a thread's own sequence when that
thread issued all the calls. -/
theorem edges_follow_the_interleaving (max_size : Nat) (calls : List (Nat × ADDRINT))
    (h : calls.length < max_size) :
    (∀ a b, (a, b) ∈ written_edges
          (Fini (feed max_size (calls.map Prod.snd) (init true))).state.sink ↔
        (a ≠ 0 ∧ ∃ xs ys, calls.map Prod.snd = xs ++ a :: b :: ys))
      ∧ (∀ t, (∀ c ∈ calls, c.1 = t) →
          ∀ a b, (a, b) ∈ written_edges
              (Fini (feed max_size (calls.map Prod.snd) (init true))).state.sink ↔
            (a ≠ 0 ∧ (a, b) ∈ transitions (thread_samples t calls))) := by
  have hl : (calls.map Prod.snd).length < max_size := by rw [List.length_map]; exact h
  refine ⟨fun a b => ?_, fun t ht a b => ?_⟩
  · rw [Fini_feed_written max_size _ hl, mem_transitions]
  · rw [Fini_feed_written max_size _ hl, thread_samples_of_single t calls ht]

/-- C12 amended, on the alternating calls of two threads. -/
theorem edges_follow_the_interleaving_witness :
    [(1, 0x100), (2, 0x200), (1, 0x104), (2, 0x204)].length < 1000
      ∧ ((0x200, 0x104) ∈ written_edges (Fini (feed 1000
          ([(1, 0x100), (2, 0x200), (1, 0x104), (2, 0x204)].map Prod.snd)
          (init true))).state.sink ↔
        (0x200 ≠ 0 ∧ ∃ xs ys,
          [(1, 0x100), (2, 0x200), (1, 0x104), (2, 0x204)].map Prod.snd
            = xs ++ 0x200 :: 0x104 :: ys)) :=
  ⟨by decide,
    (edges_follow_the_interleaving 1000 [(1, 0x100), (2, 0x200), (1, 0x104), (2, 0x204)]
      (by decide)).1 0x200 0x104⟩

theorem transitions_reach (x v : ADDRINT) (l : List ADDRINT) (hv : v ∈ x :: l) :
    Relation.ReflTransGen (fun a b => (a, b) ∈ transitions (x :: l)) x v := by
  induction l generalizing x with
  | nil =>
    rw [List.mem_singleton] at hv
    subst hv
    exact Relation.ReflTransGen.refl
  | cons y ys ih =>
    rcases List.mem_cons.1 hv with rfl | hv
    · exact Relation.ReflTransGen.refl
    · have hstep : (x, y) ∈ transitions (x :: y :: ys) := by simp [transitions]
      refine Relation.ReflTransGen.head hstep ?_
      refine Relation.ReflTransGen.mono ?_ (ih y hv)
      intro a b hab
      simp only [transitions, List.mem_cons]
      exact Or.inr hab

theorem transitions_source (a b x : ADDRINT) (l : List ADDRINT)
    (h : (a, b) ∈ transitions (x :: l)) : a = x ∨ ∃ c, (c, a) ∈ transitions (x :: l) := by
  induction l generalizing x with
  | nil => simp [transitions] at h
  | cons y ys ih =>
    simp only [transitions, List.mem_cons, Prod.mk.injEq] at h
    rcases h with ⟨rfl, -⟩ | h
    · exact Or.inl rfl
    · right
      rcases ih y h with rfl | ⟨c, hc⟩
      · exact ⟨x, by simp [transitions]⟩
      · exact ⟨c, by simp only [transitions, List.mem_cons]; exact Or.inr hc⟩

/-- C18. Connectedness: for every non-empty sequence `x :: rest` of fewer than `max_size`
nonzero samples, fed to `track_ip` from the initial state and then finalized, `Fini`
returns; every address that appears in a written edge, as source or as target, is
reachable from the first sample `x` by following written edges; and every source of a
written edge is the first sample or the target of a written edge. -/
theorem written_graph_connected (max_size : Nat) (x : ADDRINT) (rest : List ADDRINT)
    (hlen : (x :: rest).length < max_size) (hnz : ∀ y ∈ x :: rest, y ≠ 0) :
    (Fini (feed max_size (x :: rest) (init true))).returned = true
      ∧ (∀ a b, (a, b) ∈ written_edges (Fini (feed max_size (x :: rest) (init true))).state.sink →
          Relation.ReflTransGen
              (fun c d => (c, d) ∈ written_edges
                (Fini (feed max_size (x :: rest) (init true))).state.sink) x a
            ∧ Relation.ReflTransGen
              (fun c d => (c, d) ∈ written_edges
                (Fini (feed max_size (x :: rest) (init true))).state.sink) x b)
      ∧ (∀ a b, (a, b) ∈ written_edges (Fini (feed max_size (x :: rest) (init true))).state.sink →
          a = x ∨ ∃ c, (c, a) ∈ written_edges
            (Fini (feed max_size (x :: rest) (init true))).state.sink) := by
  have key : ∀ a b, (a, b) ∈ written_edges
      (Fini (feed max_size (x :: rest) (init true))).state.sink ↔
      (a, b) ∈ transitions (x :: rest) := by
    intro a b
    rw [Fini_feed_written max_size _ hlen]
    constructor
    · exact fun h => h.2
    · exact fun h => ⟨hnz a (transitions_fst_mem a b _ h), h⟩
  have hrel : (fun c d => (c, d) ∈ written_edges
      (Fini (feed max_size (x :: rest) (init true))).state.sink)
      = (fun c d => (c, d) ∈ transitions (x :: rest)) := by
    funext c d
    exact propext (key c d)
  refine ⟨Fini_feed_returned max_size _ hlen (List.cons_ne_nil _ _), ?_, ?_⟩
  · intro a b hab
    rw [hrel]
    have hab := (key a b).1 hab
    exact ⟨transitions_reach x a rest (transitions_fst_mem a b _ hab),
      transitions_reach x b rest (transitions_snd_mem a b _ hab)⟩
  · intro a b hab
    rcases transitions_source a b x rest ((key a b).1 hab) with h | ⟨c, hc⟩
    · exact Or.inl h
    · exact Or.inr ⟨c, (key c a).2 hc⟩

/-- C18, at the sequence of the specification: `0x10c` is reached from `0x100`. -/
theorem written_graph_connected_witness :
    [0x100, 0x104, 0x108, 0x104, 0x108, 0x10c].length < 1000
      ∧ (∀ y ∈ [0x100, 0x104, 0x108, 0x104, 0x108, 0x10c], y ≠ 0)
      ∧ written_edges
          (Fini (feed 1000 [0x100, 0x104, 0x108, 0x104, 0x108, 0x10c] (init true))).state.sink
        = [(0x100, 0x104), (0x104, 0x108), (0x108, 0x104), (0x108, 0x10c)]
      ∧ Relation.ReflTransGen
          (fun c d => (c, d) ∈ written_edges
            (Fini (feed 1000 [0x100, 0x104, 0x108, 0x104, 0x108, 0x10c]
              (init true))).state.sink) 0x100 0x10c :=
  ⟨by decide, by decide, by decide,
    ((written_graph_connected 1000 0x100 [0x104, 0x108, 0x104, 0x108, 0x10c]
      (by decide) (by decide)).2.1 0x108 0x10c (by decide)).2⟩

end MyPinTool
